import Mathlib

/-!
Shallow embedding of the VIC-cipher core of `old-crypto-rs`
(`src/helpers.rs`, `src/straddling.rs`, `src/transposition.rs`, `src/vic.rs`).

Rust strings are modelled as lists of byte values (`List Nat`); all inputs of
interest are ASCII, where byte iteration and `char` iteration coincide.
Rust `Vec<u8>` buffers become `List Nat`, fixed-size lookup arrays become
update-functions `Nat → _`, and in-place loops become structural recursions
(fuel arguments mirror loop bounds where the Rust loop is a `while`).
-/

/-- Byte values of an ASCII string, for writing concrete inputs readably. -/
def strBytes (s : String) : List Nat :=
  s.data.map Char.toNat

/-! ### helpers.rs -/

/-- Model of `helpers::condense` (first occurrence of each character kept),
with the `HashSet` of seen characters carried as a list. -/
def condenseAux : List Nat → List Nat → List Nat
  | [], _ => []
  | x :: xs, seen =>
    if x ∈ seen then condenseAux xs seen else x :: condenseAux xs (x :: seen)

/-- Model of `helpers::condense`. -/
def condense (l : List Nat) : List Nat :=
  condenseAux l []

/-- Inner `for j in 0..=height` loop of `helpers::shuffle`; `fuel` counts the
remaining `j` iterations (`height+1` in total), and the returned `Bool` is the
early-`return` flag. -/
def shuffleInner (i height : Nat) : Nat → Nat → List Nat → List Nat →
    (List Nat × List Nat × Bool)
  | _, 0, word, res => (word, res, false)
  | j, fuel + 1, word, res =>
    if word.length ≤ height - 1 then
      (word, res ++ word, true)
    else if i * j < word.length then
      shuffleInner i height (j + 1) fuel (word.eraseIdx (i * j))
        (res ++ [word.getD (i * j) 0])
    else
      shuffleInner i height (j + 1) fuel word res

/-- Outer `for i in (0..length).rev()` loop of `helpers::shuffle`. -/
def shuffleOuter (height : Nat) : List Nat → List Nat → List Nat → List Nat
  | [], _, res => res
  | i :: is, word, res =>
    match shuffleInner i height 0 (height + 1) word res with
    | (word', res', early) => if early then res' else shuffleOuter height is word' res'

/-- Model of `helpers::shuffle`. -/
def shuffle (key alphabet : List Nat) : List Nat :=
  let word := condense (key ++ alphabet)
  let length := (condense key).length
  let height := alphabet.length / length + (if alphabet.length % length ≠ 0 then 1 else 0)
  shuffleOuter height ((List.range length).reverse) word []

/-- Model of the scan in `helpers::to_numeric`: first index `k` (0-based) with
`sorted[k] = ch` and `used[k] = false`. -/
def findUnused : List Nat → List Bool → Nat → Option Nat
  | x :: xs, b :: us, ch =>
    if x = ch ∧ b = false then some 0 else (findUnused xs us ch).map (· + 1)
  | _, _, _ => none

/-- Outer loop of `helpers::to_numeric` over the key characters, carrying the
`used_sorted` array. -/
def to_numeric_aux : List Nat → List Nat → List Bool → List Nat
  | [], _, _ => []
  | ch :: rest, s, u =>
    match findUnused s u ch with
    | some k => k :: to_numeric_aux rest s (u.set k true)
    | none => to_numeric_aux rest s u

/-- Model of `helpers::to_numeric` (`sort_unstable` on byte values modelled by
`insertionSort`, which produces the same sorted list). -/
def to_numeric (l : List Nat) : List Nat :=
  to_numeric_aux l (List.insertionSort (· ≤ ·) l) (List.replicate l.length false)

/-! ### vic.rs key-derivation helpers -/

/-- Model of `vic::str2int`. -/
def str2int (s : List Nat) : List Nat :=
  s.map (fun b => b - 48)

/-- Model of `vic::addmod10_inplace`: the zipped prefix of `a` is replaced by
the elementwise mod-10 sum; the tail of `a` beyond `b` is kept unchanged. -/
def addmod10_inplace (a b : List Nat) : List Nat :=
  ((a.zip b).map fun p => (p.1 + p.2) % 10) ++ a.drop b.length

/-- Model of `vic::submod10`. -/
def submod10 (a b : List Nat) : List Nat :=
  (a.zip b).map fun p => (p.1 + 10 - p.2) % 10

/-- Model of `vic::chainadd_inplace`: each element is replaced by the mod-10 sum
with its original right neighbour; the last element wraps around to the
original first element. -/
def chainadd_inplace (a : List Nat) : List Nat :=
  if a.length < 2 then a
  else
    (List.zipWith (fun x y => (x + y) % 10) a (a.drop 1)) ++
      [(a.getD (a.length - 1) 0 + a.getD 0 0) % 10]

/-- Model of the extension loop of `vic::chainadd_extend`; the Rust indexings
`res[i]`, `res[i+1]` become `getD` (the call sites keep them in bounds). -/
def chainadd_extend_aux : List Nat → Nat → Nat → List Nat
  | res, _, 0 => res
  | res, i, n + 1 =>
    chainadd_extend_aux (res ++ [(res.getD i 0 + res.getD (i + 1) 0) % 10]) (i + 1) n

/-- Model of `vic::chainadd_extend`. -/
def chainadd_extend (a : List Nat) (n : Nat) : List Nat :=
  chainadd_extend_aux a 0 n

/-- Model of `vic::first_encode`. -/
def first_encode (a b : List Nat) : List Nat :=
  a.map fun v => b.getD ((v + 9) % 10) 0

/-- Model of `vic::ExpandedKey`. -/
structure ExpandedKey where
  second : List Nat
  third : List Nat
  sckey : List Nat
  deriving Repr, DecidableEq

/-- Model of `vic::expand_key` (digit arithmetic of the VIC key schedule).
The Rust slices `&phrase[..10]` / `&phrase[10..20]` are `take`/`drop`; the
call site guards `phrase.length ≥ 20`. -/
def expand_key (phrase imsg ikey5 : List Nat) : ExpandedKey :=
  let ph1 := (to_numeric (phrase.take 10)).map fun x => (x + 1) % 10
  let ph2 := (to_numeric ((phrase.drop 10).take 10)).map fun x => (x + 1) % 10
  let first0 := submod10 imsg ikey5
  let first1 := chainadd_extend first0 5
  let first2 := addmod10_inplace first1 ph1
  let second := first_encode first2 ph2
  let r := chainadd_inplace (chainadd_inplace (chainadd_inplace
    (chainadd_inplace (chainadd_inplace second))))
  { second := second
    third := r
    sckey := to_numeric (r.map (· + 48)) }

/-! ### straddling.rs -/

/-- Model of `straddling::EncEntry` (`len` 0 for unmapped, else 1 or 2; the two
code bytes). -/
structure EncEntry where
  len : Nat
  b0 : Nat
  b1 : Nat
  deriving Repr, DecidableEq

/-- Zero entry, the `Default` of `EncEntry`. -/
def EncEntry.zero : EncEntry := ⟨0, 0, 0⟩

/-- Pointwise update of a lookup function, modelling a write into a fixed-size
Rust array. -/
def updFn {α : Type} (f : Nat → α) (k : Nat) (v : α) : Nat → α :=
  fun x => if x = k then v else f x

/-- Pointwise update of a two-dimensional lookup function. -/
def updFn2 {α : Type} (f : Nat → Nat → α) (k0 k1 : Nat) (v : α) : Nat → Nat → α :=
  fun x y => if x = k0 ∧ y = k1 then v else f x y

/-- Model of `straddling::StraddlingCheckerboard` (the lookup arrays
`enc_table`, `dec1`, `dec2`, `longc_mask` as update-functions). -/
structure StraddlingCheckerboard where
  key : List Nat
  longc : List Nat
  full : List Nat
  enc_table : Nat → EncEntry
  dec1 : Nat → Nat
  dec2 : Nat → Nat → Nat
  longc_mask : Nat → Bool

/-- Model of `straddling::ALPHABET_TXT` (A-Z then the slash and dash symbols). -/
def ALPHABET_TXT : List Nat := strBytes "ABCDEFGHIJKLMNOPQRSTUVWXYZ/-"

/-- Model of `straddling::ALL_CIPHER` (`b"0123456789"`). -/
def ALL_CIPHER : List Nat := strBytes "0123456789"

/-- Rust `u8::is_ascii_digit`. -/
def isAsciiDigit (b : Nat) : Bool := 48 ≤ b && b ≤ 57

/-- Model of `StraddlingCheckerboard::extract`. -/
def StraddlingCheckerboard.extract (set two : List Nat) : List Nat :=
  set.filter (fun x => !(two.contains x))

/-- Model of `StraddlingCheckerboard::times10`: the codes are byte strings, of
length 1 when the prefix is `'0'` and length 2 otherwise. -/
def StraddlingCheckerboard.times10 (c : Nat) : List (List Nat) :=
  if c = 48 then ALL_CIPHER.map (fun b => [b])
  else ALL_CIPHER.map (fun b => [c, b])

/-- Model of `StraddlingCheckerboard::set_times10`. -/
def StraddlingCheckerboard.set_times10 (set : List Nat) : List (List Nat) :=
  StraddlingCheckerboard.times10 (set.getD 0 0) ++ StraddlingCheckerboard.times10 (set.getD 1 0)

/-- One step of the `StraddlingCheckerboard::expand_key` loop: given the
current tables and counters `(i, j)`, process one character of `full`.
The result `none` models the Rust index-out-of-range panic at the write
`self.dec2[(d0 - b'0') as usize][(d1 - b'0') as usize]` (a fixed 10 x 10
array), which is reached whenever an assigned two-digit code holds a byte
that is not an ASCII digit; a `none` state is sticky, as the Rust process
has aborted. The `dec1` write's index `digit - b'0'` needs no guard: `digit`
comes from `shortc ⊆ ALL_CIPHER`, always an ASCII digit. -/
def scExpandStep (shortc : List Nat) (longcCodes : List (List Nat)) (freq : List Nat)
    (st : Option ((Nat → EncEntry) × (Nat → Nat) × (Nat → Nat → Nat) × Nat × Nat))
    (ch : Nat) :
    Option ((Nat → EncEntry) × (Nat → Nat) × (Nat → Nat → Nat) × Nat × Nat) :=
  match st with
  | none => none
  | some (enc, d1, d2, i, j) =>
    if ch ∈ freq then
      if i < shortc.length then
        let digit := shortc.getD i 0
        some (updFn enc ch ⟨1, digit, 0⟩, updFn d1 (digit - 48) ch, d2, i + 1, j)
      else some (enc, d1, d2, i, j)
    else
      if j < longcCodes.length then
        let code := longcCodes.getD j []
        if code.length = 2 then
          let d0 := code.getD 0 0
          let e1 := code.getD 1 0
          if isAsciiDigit d0 && isAsciiDigit e1 then
            some (updFn enc ch ⟨2, d0, e1⟩, d1, updFn2 d2 (d0 - 48) (e1 - 48) ch, i, j + 1)
          else none
        else some (enc, d1, d2, i, j + 1)
      else some (enc, d1, d2, i, j)

/-- Model of `StraddlingCheckerboard::expand_key`: fold the step over the
shuffled alphabet; `none` propagates the panic. -/
def scExpandKey (full shortc longc freq : List Nat) :
    Option ((Nat → EncEntry) × (Nat → Nat) × (Nat → Nat → Nat)) :=
  let longcCodes := StraddlingCheckerboard.set_times10 longc
  match full.foldl (scExpandStep shortc longcCodes freq)
    (some (fun _ => EncEntry.zero, fun _ => 0, fun _ _ => 0, 0, 0)) with
  | none => none
  | some (enc, d1, d2, _, _) => some (enc, d1, d2)

/-- Model of the `longc_mask` initialisation loop in `new_with_freq`. -/
def scLongcMask (longc : List Nat) : Nat → Bool :=
  longc.foldl (fun m c => if isAsciiDigit c then updFn m (c - 48) true else m) (fun _ => false)

/-- Model of `StraddlingCheckerboard::new_with_freq`. The outer `Option`
models termination: `none` is the table-build panic of `expand_key`
(reachable only when a prefix character is not an ASCII digit), while
`some (Except.error _)` is the validated error return. -/
def new_with_freq (key chrs freq_str alphabet : List Nat) :
    Option (Except String StraddlingCheckerboard) :=
  if key.isEmpty then some (Except.error "key can not be empty")
  else if chrs.length < 2 then some (Except.error "longc must have at least 2 characters")
  else
    let longc := [chrs.getD 0 0, chrs.getD 1 0]
    let full := if key.isEmpty then alphabet else shuffle key alphabet
    let full_clean := full.filter (fun c => alphabet.contains c)
    let shortc := StraddlingCheckerboard.extract ALL_CIPHER longc
    match scExpandKey full_clean shortc longc freq_str with
    | none => none
    | some (enc, d1, d2) =>
      some (Except.ok
        { key := key
          longc := longc
          full := full_clean
          enc_table := enc
          dec1 := d1
          dec2 := d2
          longc_mask := scLongcMask longc })

/-- Model of `StraddlingCheckerboard::new` (default frequency `"ESANTIRU"` and
default alphabet). -/
def StraddlingCheckerboard.new (key chrs : List Nat) :
    Option (Except String StraddlingCheckerboard) :=
  new_with_freq key chrs (strBytes "ESANTIRU") ALPHABET_TXT

/-- Bytes written into `dst` for an `EncEntry` emission in
`StraddlingCheckerboard::encrypt` (`dst[offset] = bytes[0]`, and `bytes[1]`
when `len == 2`); only called under `len ≠ 0`. -/
def EncEntry.emit (e : EncEntry) : List Nat :=
  if e.len = 2 then [e.b0, e.b1] else [e.b0]

/-- Bytes written for one source byte in `StraddlingCheckerboard::encrypt`:
ASCII digits are escaped as marker ++ digit ++ digit ++ marker (when the `'/'`
marker is mapped), other bytes emit their code (nothing when unmapped). -/
def scEncByte (c : StraddlingCheckerboard) (ch : Nat) : List Nat :=
  if isAsciiDigit ch then
    let marker := c.enc_table 47
    if marker.len ≠ 0 then marker.emit ++ [ch, ch] ++ marker.emit else []
  else
    let entry := c.enc_table ch
    if entry.len ≠ 0 then entry.emit else []

/-- Model of `StraddlingCheckerboard::encrypt` (the written `dst` prefix; its
length is the returned `offset`). -/
def scEncrypt (c : StraddlingCheckerboard) (src : List Nat) : List Nat :=
  src.flatMap (scEncByte c)

/-- One guarded output write of `StraddlingCheckerboard::decrypt`
(`if pt_offset < dst.len() { dst[pt_offset] = x; pt_offset += 1; }`). -/
def scPush (dstLen : Nat) (out : List Nat) (x : Nat) : List Nat :=
  if out.length < dstLen then out ++ [x] else out

/-- Digit-escape test of `StraddlingCheckerboard::decrypt`, evaluated at the
index `i'` just past the decoded code (the Rust `i` after `i += db_len`): a
repeated digit pair whose following two digits either repeat the code just
consumed (`is_match`, only for two-digit codes) or decode to the marker. -/
def scEscapeTest (c : StraddlingCheckerboard) (src : List Nat) (i' db_len : Nat) : Bool :=
  decide (i' + 4 ≤ src.length) &&
  (src.getD i' 0 == src.getD (i' + 1) 0) &&
  isAsciiDigit (src.getD (i' + 2) 0) &&
  isAsciiDigit (src.getD (i' + 3) 0) &&
  (((db_len == 2) && (src.getD (i' + 2) 0 == src.getD (i' - 2) 0) &&
      (src.getD (i' + 3) 0 == src.getD (i' - 1) 0)) ||
    (c.dec2 (src.getD (i' + 2) 0 - 48) (src.getD (i' + 3) 0 - 48) == 47))

/-- Post-decode handling of one code in `StraddlingCheckerboard::decrypt`:
given the decoded plain byte `ptc` and the advanced index `i'`, return the
next loop index and output (escaped literal digit, or the guarded write of
`ptc` when nonzero). -/
def scStep (c : StraddlingCheckerboard) (src : List Nat) (dstLen : Nat)
    (i' ptc db_len : Nat) (out : List Nat) : Nat × List Nat :=
  if ptc = 47 ∧ scEscapeTest c src i' db_len = true then
    (i' + 4, scPush dstLen out (src.getD i' 0))
  else if ptc ≠ 0 then (i', scPush dstLen out ptc)
  else (i', out)

/-- Model of the `StraddlingCheckerboard::decrypt` loop. `fuel` bounds the
number of iterations (the index `i` strictly increases, so `src.length` fuel
is enough); `out` is the written `dst` prefix (its length is `pt_offset`) and
`dstLen` is the capacity of `dst`. The two `continue` sites that skip a
malformed long code advance by 2 (non-digit after a long prefix) or 1 (input
ends after a long prefix). -/
def scDecryptLoop (c : StraddlingCheckerboard) (src : List Nat) (dstLen : Nat) :
    Nat → Nat → List Nat → List Nat
  | 0, _, out => out
  | fuel + 1, i, out =>
    if i < src.length then
      if isAsciiDigit (src.getD i 0) = true then
        if c.longc_mask (src.getD i 0 - 48) = true then
          if i + 1 < src.length then
            if isAsciiDigit (src.getD (i + 1) 0) = true then
              match scStep c src dstLen (i + 2)
                  (c.dec2 (src.getD i 0 - 48) (src.getD (i + 1) 0 - 48)) 2 out with
              | (i2, out2) => scDecryptLoop c src dstLen fuel i2 out2
            else scDecryptLoop c src dstLen fuel (i + 2) out
          else scDecryptLoop c src dstLen fuel (i + 1) out
        else
          match scStep c src dstLen (i + 1) (c.dec1 (src.getD i 0 - 48)) 1 out with
          | (i2, out2) => scDecryptLoop c src dstLen fuel i2 out2
      else scDecryptLoop c src dstLen fuel (i + 1) out
    else out

/-- Model of `StraddlingCheckerboard::decrypt`: `dstLen` is the capacity of the
caller's destination buffer; the result is the written prefix of `dst` (its
length is the returned `pt_offset`). -/
def scDecrypt (c : StraddlingCheckerboard) (dstLen : Nat) (src : List Nat) : List Nat :=
  scDecryptLoop c src dstLen src.length 0 []

/-! ### transposition.rs -/

/-- Model of `Transposition::new` / `IrregularTransposition::new`: an empty key
is rejected, otherwise the numeric rank key is computed. -/
def trNew (key : List Nat) : Except String (List Nat) :=
  if key.isEmpty then Except.error "key can not be empty" else Except.ok (to_numeric key)

/-- Model of the inner `while curr < src.len()` loop of `Transposition::encrypt`
(collect `src[curr]`, stepping by `klen`); `fuel` bounds the iteration count
(`src.length` is enough since `klen ≥ 1`). -/
def takeStride (src : List Nat) (klen : Nat) : Nat → Nat → List Nat
  | _, 0 => []
  | curr, fuel + 1 =>
    if curr < src.length then src.getD curr 0 :: takeStride src klen (curr + klen) fuel
    else []

/-- Model of `Transposition::encrypt`: for each output rank `i`, locate the
column `j` whose rank is `i` (`position` + `unwrap` on the rank key) and
append that column's cells. -/
def trEncrypt (tkey : List Nat) (src : List Nat) : List Nat :=
  (List.range tkey.length).flatMap fun i => takeStride src tkey.length (tkey.indexOf i) src.length

/-- One column write of `Transposition::decrypt`: `dst[dst_idx] = src[current+k]`
for `k` in `0..how_many`, with `dst_idx` stepping by `klen`. -/
def writeCol (src : List Nat) (klen : Nat) : Nat → Nat → Nat → List Nat → List Nat
  | _, _, 0, dst => dst
  | dstIdx, srcIdx, k + 1, dst =>
    writeCol src klen (dstIdx + klen) (srcIdx + 1) k (dst.set dstIdx (src.getD srcIdx 0))

/-- Loop body of `Transposition::decrypt` over ranks `j`, carrying `current`. -/
def trDecryptLoop (tkey src : List Nat) (scol extra : Nat) :
    List Nat → Nat → List Nat → List Nat
  | [], _, dst => dst
  | j :: js, current, dst =>
    let ind := tkey.indexOf j
    let how_many := if ind < extra then scol + 1 else scol
    trDecryptLoop tkey src scol extra js (current + how_many)
      (writeCol src tkey.length ind current how_many dst)

/-- Model of `Transposition::decrypt` (the destination buffer starts as the
caller's zeroed scratch and every cell is assigned). -/
def trDecrypt (tkey : List Nat) (src : List Nat) : List Nat :=
  let klen := tkey.length
  if klen = 0 ∨ src.isEmpty then []
  else
    let scol := src.length / klen
    let extra := src.length % klen
    trDecryptLoop tkey src scol extra (List.range klen) 0 (List.replicate src.length 0)

/-- Paint `n` consecutive cells `true` starting at `idx`, modelling the inner
`for c in curr_col..klen` loop of `get_triangular_mask`. -/
def setTrueFrom (mask : List Bool) (idx : Nat) : Nat → List Bool
  | 0 => mask
  | n + 1 => setTrueFrom (mask.set idx true) (idx + 1) n

/-- Model of the `while curr_row < rows && curr_col < klen` loop of
`get_triangular_mask`; `fuel` bounds the iterations (`rows` is enough since
`curr_row` starts at 0 and increments). -/
def bandLoop (klen rows : Nat) : Nat → Nat → Nat → List Bool → List Bool
  | 0, _, _, mask => mask
  | fuel + 1, row, col, mask =>
    if row < rows ∧ col < klen then
      bandLoop klen rows fuel (row + 1) (col + 1) (setTrueFrom mask (row * klen + col) (klen - col))
    else mask

/-- Model of `IrregularTransposition::get_triangular_mask`: paint the diagonal
band anchored at the columns of rank 0 and (when the key has at least two
columns) rank 1. -/
def get_triangular_mask (tkey : List Nat) (len : Nat) : List Bool :=
  let klen := tkey.length
  let rows := (len + klen - 1) / klen
  (List.range (min 2 klen)).foldl
    (fun mask rank => bandLoop klen rows rows 0 (tkey.indexOf rank) mask)
    (List.replicate (rows * klen) false)

/-- One cell of the two fill phases of `IrregularTransposition::encrypt`:
fill the cell when its mask value matches the phase and source bytes remain. -/
def irrFillStep (mask : List Bool) (phase : Bool) (src : List Nat)
    (st : List Nat × List Bool × Nat) (idx : Nat) : List Nat × List Bool × Nat :=
  match st with
  | (grid, active, si) =>
    if mask.getD idx false = phase ∧ si < src.length then
      (grid.set idx (src.getD si 0), active.set idx true, si + 1)
    else (grid, active, si)

/-- Both fill phases of `IrregularTransposition::encrypt` (non-triangular cells
row-major, then triangular cells row-major), returning the grid and the
occupancy bitmap. -/
def irrFill (mask : List Bool) (src : List Nat) (cells : Nat) : List Nat × List Bool :=
  let st1 := (List.range cells).foldl (irrFillStep mask false src)
    (List.replicate cells 0, List.replicate cells false, 0)
  match (List.range cells).foldl (irrFillStep mask true src) st1 with
  | (grid, active, _) => (grid, active)

/-- Column readout of `IrregularTransposition::encrypt`: columns in rank
order, each column's occupied cells top to bottom. -/
def irrReadCols (tkey : List Nat) (rows : Nat) (grid : List Nat) (active : List Bool) :
    List Nat :=
  (List.range tkey.length).flatMap fun i =>
    let col := tkey.indexOf i
    (List.range rows).filterMap fun r =>
      let idx := r * tkey.length + col
      if active.getD idx false then some (grid.getD idx 0) else none

/-- Model of `IrregularTransposition::encrypt`. -/
def irrEncrypt (tkey : List Nat) (src : List Nat) : List Nat :=
  let klen := tkey.length
  let len := src.length
  if klen = 0 ∨ len = 0 then []
  else
    let rows := (len + klen - 1) / klen
    let mask := get_triangular_mask tkey len
    match irrFill mask src (rows * klen) with
    | (grid, active) => irrReadCols tkey rows grid active

/-- Occupancy bitmap recomputation of `IrregularTransposition::decrypt` (same
two-phase order as the encrypt fill, without the data). -/
def irrActive (mask : List Bool) (len cells : Nat) : List Bool :=
  let st1 := (List.range cells).foldl
    (fun st idx => match st with
      | (active, count) =>
        if mask.getD idx false = false ∧ count < len then (active.set idx true, count + 1)
        else (active, count))
    (List.replicate cells false, 0)
  match (List.range cells).foldl
    (fun st idx => match st with
      | (active, count) =>
        if mask.getD idx false = true ∧ count < len then (active.set idx true, count + 1)
        else (active, count))
    st1 with
  | (active, _) => active

/-- Column fill of `IrregularTransposition::decrypt`: distribute `src` into the
occupied cells, columns in rank order. -/
def irrFillCols (tkey : List Nat) (rows : Nat) (active : List Bool) (src : List Nat)
    (cells : Nat) : List Nat :=
  let st := ((List.range tkey.length).flatMap fun i =>
      let col := tkey.indexOf i
      (List.range rows).filterMap fun r =>
        let idx := r * tkey.length + col
        if active.getD idx false then some idx else none).foldl
    (fun st idx => match st with
      | (grid, si) => (grid.set idx (src.getD si 0), si + 1))
    (List.replicate cells 0, 0)
  st.1

/-- Row-major two-phase readout of `IrregularTransposition::decrypt`
(non-triangular occupied cells first, then triangular occupied cells). -/
def irrReadRows (mask active : List Bool) (grid : List Nat) (cells : Nat) : List Nat :=
  ((List.range cells).filterMap fun idx =>
    if active.getD idx false ∧ mask.getD idx false = false then some (grid.getD idx 0) else none) ++
  ((List.range cells).filterMap fun idx =>
    if active.getD idx false ∧ mask.getD idx false = true then some (grid.getD idx 0) else none)

/-- Model of `IrregularTransposition::decrypt`. -/
def irrDecrypt (tkey : List Nat) (src : List Nat) : List Nat :=
  let klen := tkey.length
  let len := src.length
  if klen = 0 ∨ len = 0 then []
  else
    let rows := (len + klen - 1) / klen
    let mask := get_triangular_mask tkey len
    let active := irrActive mask len (rows * klen)
    let grid := irrFillCols tkey rows active src (rows * klen)
    irrReadRows mask active grid (rows * klen)

/-! ### vic.rs pipeline -/

/-- Model of `vic::VicCipher` (the two numeric transposition keys and the
straddling checkerboard). -/
structure VicCipher where
  firsttp : List Nat
  secondtp : List Nat
  sc : StraddlingCheckerboard

/-- Model of `VicCipher::new`. The result `none` models a Rust panic: the
slices `&ind[..5]` and `&phrase[..10]` / `&phrase[10..20]`, and the
`res[i+1]` indexing inside `chainadd_extend` (reachable when fewer than two
digits survive `submod10`), index out of bounds instead of returning `Err`. -/
def vicNew (persn ind phrase imsg : List Nat) : Option (Except String VicCipher) :=
  if ind.length < 5 then none
  else if phrase.length < 20 then none
  else if min imsg.length 5 < 2 then none
  else
    let imsg_int := str2int imsg
    let ikey5 := str2int (ind.take 5)
    let expanded := expand_key phrase imsg_int ikey5
    match trNew expanded.second with
    | Except.error e => some (Except.error e)
    | Except.ok firsttp =>
      match trNew expanded.third with
      | Except.error e => some (Except.error e)
      | Except.ok secondtp =>
        let sc_key_str := expanded.sckey.map (fun v => 48 + v)
        match new_with_freq sc_key_str persn (strBytes "ATONESIR") ALPHABET_TXT with
        | none => none
        | some (Except.error e) => some (Except.error e)
        | some (Except.ok sc) =>
          some (Except.ok { firsttp := firsttp, secondtp := secondtp, sc := sc })

/-- Model of `VicCipher::encrypt` (`Block::encrypt` in `vic.rs`): straddling
checkerboard, then regular transposition, then irregular transposition. -/
def vicEncrypt (c : VicCipher) (src : List Nat) : List Nat :=
  let buf_sc := scEncrypt c.sc src
  let buf_tp1 := trEncrypt c.firsttp buf_sc
  irrEncrypt c.secondtp buf_tp1

/-- Model of `VicCipher::decrypt`: inverse stage order; `dstLen` is the
capacity of the caller's destination buffer (passed to the checkerboard). -/
def vicDecrypt (c : VicCipher) (dstLen : Nat) (src : List Nat) : List Nat :=
  let buf_tp2 := irrDecrypt c.secondtp src
  let buf_tp1 := trDecrypt c.firsttp buf_tp2
  scDecrypt c.sc dstLen buf_tp1

/-! ### Concrete instances used by the claims -/

/-- Empty checkerboard, used only as the junk default when destructuring a
construction result that is known to succeed. -/
def emptyBoard : StraddlingCheckerboard :=
  { key := [], longc := [], full := [], enc_table := fun _ => EncEntry.zero,
    dec1 := fun _ => 0, dec2 := fun _ _ => 0, longc_mask := fun _ => false }

/-- Extract the checkerboard from a construction result. -/
def okBoard (r : Option (Except String StraddlingCheckerboard)) : StraddlingCheckerboard :=
  match r with
  | some (Except.ok c) => c
  | _ => emptyBoard

/-- Whether a `VicCipher::new` outcome is a successful construction. -/
def vicNewOk (r : Option (Except String VicCipher)) : Bool :=
  match r with
  | some (Except.ok _) => true
  | _ => false

/-- Extract the cipher from a `VicCipher::new` outcome. -/
def okVic (r : Option (Except String VicCipher)) : VicCipher :=
  match r with
  | some (Except.ok c) => c
  | _ => { firsttp := [], secondtp := [], sc := emptyBoard }

/-- The VIC instance of the end-to-end scenario,
`VicCipher::new("89", "741776", "IDREAMOFJEANNIEWITHT", "77651")`. -/
def vic_fixture : VicCipher :=
  okVic (vicNew (strBytes "89") (strBytes "741776") (strBytes "IDREAMOFJEANNIEWITHT")
    (strBytes "77651"))

/-- The checkerboard of `StraddlingCheckerboard::new("ARABESQUE", "89")`, the
instance of the repository's own doc examples. -/
def arabesque_board : StraddlingCheckerboard :=
  okBoard (StraddlingCheckerboard.new (strBytes "ARABESQUE") (strBytes "89"))

/-- A checkerboard built by the public constructor with prefix digits `"00"`:
construction succeeds, but every two-digit code collapses to a single digit,
so the `'/'` escape marker (and every other low-frequency symbol) ends up
unmapped. -/
def zeroes_board : StraddlingCheckerboard :=
  okBoard (StraddlingCheckerboard.new (strBytes "A") (strBytes "00"))

/-! ### Specification-side definitions used by the claims -/

/-- Occurrences in `l` strictly below `v`. -/
def cntLt (l : List Nat) (v : Nat) : Nat := l.countP (fun x => decide (x < v))

/-- Occurrences of `v` in `l`. -/
def cntEq (l : List Nat) (v : Nat) : Nat := l.countP (fun x => decide (x = v))

/-- Modelled from the spec: the stable rank of position `i` of `l` — the index
that position `i` receives in a stable sort by byte value, i.e. the number of
strictly smaller elements anywhere plus the number of equal elements at
earlier positions. -/
def stableRank (l : List Nat) (i : Nat) : Nat :=
  cntLt l (l.getD i 0) + cntEq (l.take i) (l.getD i 0)

/-- Per-rank cell count of `Transposition::decrypt`: the column at position
`ind` receives one extra cell exactly when `ind < extra` (the source's
`if ind < extra { scol + 1 } else { scol }`). -/
def howMany (tkey : List Nat) (srcLen j : Nat) : Nat :=
  if tkey.indexOf j < srcLen % tkey.length then srcLen / tkey.length + 1
  else srcLen / tkey.length

/-- Source offset of rank `j` within the remaining rank list `js`. -/
def offsetIn (tkey : List Nat) (srcLen : Nat) : List Nat → Nat → Nat
  | [], _ => 0
  | j' :: js, j => if j = j' then 0 else howMany tkey srcLen j' + offsetIn tkey srcLen js j

/-- Modelled from the spec (claim C5's reading): the decrypt loop with the
extra cell granted to the columns whose rank — not position — is below
`len mod klen`. -/
def trDecryptRankLoop (tkey src : List Nat) (scol extra : Nat) :
    List Nat → Nat → List Nat → List Nat
  | [], _, dst => dst
  | j :: js, current, dst =>
    let ind := tkey.indexOf j
    let how_many := if j < extra then scol + 1 else scol
    trDecryptRankLoop tkey src scol extra js (current + how_many)
      (writeCol src tkey.length ind current how_many dst)

/-- Modelled from the spec (claim C5's reading of `decrypt`). -/
def trDecryptSpecRank (tkey : List Nat) (src : List Nat) : List Nat :=
  let klen := tkey.length
  if klen = 0 ∨ src.isEmpty then []
  else
    trDecryptRankLoop tkey src (src.length / klen) (src.length % klen) (List.range klen) 0
      (List.replicate src.length 0)

/-- Whether a construction outcome is a successful build (neither a panic
nor an error). -/
def constructOk {α : Type} (r : Option (Except String α)) : Bool :=
  match r with
  | some (Except.ok _) => true
  | _ => false

/-- Whether a construction outcome is a returned error (not a panic). -/
def constructErr {α : Type} (r : Option (Except String α)) : Bool :=
  match r with
  | some (Except.error _) => true
  | _ => false

/-! ### Generic list lemmas and claim theorems -/

/-! ### Generic list lemmas -/

theorem getD_set_self {α : Type} : ∀ (l : List α) (k : Nat) (v d : α),
    k < l.length → (l.set k v).getD k d = v
  | [], k, _, _, h => absurd h (by simp)
  | _ :: _, 0, _, _, _ => rfl
  | _ :: xs, k + 1, v, d, h => getD_set_self xs k v d (Nat.lt_of_succ_lt_succ h)

theorem getD_set_ne {α : Type} : ∀ (l : List α) (k j : Nat) (v d : α),
    k ≠ j → (l.set k v).getD j d = l.getD j d
  | [], _, _, _, _, _ => rfl
  | _ :: _, 0, 0, _, _, h => absurd rfl h
  | _ :: _, 0, _ + 1, _, _, _ => rfl
  | _ :: _, _ + 1, 0, _, _, _ => rfl
  | _ :: xs, k + 1, j + 1, v, d, h =>
    getD_set_ne xs k j v d (fun e => h (congrArg (· + 1) e))

theorem getD_replicate_false : ∀ (n k : Nat), (List.replicate n false).getD k false = false
  | 0, _ => rfl
  | _ + 1, 0 => rfl
  | n + 1, k + 1 => getD_replicate_false n k

theorem getD_append_cons {α : Type} : ∀ (p : List α) (x : α) (r : List α) (d : α),
    (p ++ x :: r).getD p.length d = x
  | [], _, _, _ => rfl
  | _ :: ps, x, r, d => getD_append_cons ps x r d

/-! ### C6 development: `to_numeric` computes stable ranks -/

theorem cntLt_cons (x : Nat) (xs : List Nat) (v : Nat) :
    cntLt (x :: xs) v = cntLt xs v + (if x < v then 1 else 0) := by
  simp only [cntLt, List.countP_cons]
  by_cases h : x < v <;> simp [h]

theorem cntEq_cons (x : Nat) (xs : List Nat) (v : Nat) :
    cntEq (x :: xs) v = cntEq xs v + (if x = v then 1 else 0) := by
  simp only [cntEq, List.countP_cons]
  by_cases h : x = v <;> simp [h]

theorem cntLt_append (p q : List Nat) (v : Nat) :
    cntLt (p ++ q) v = cntLt p v + cntLt q v := by
  simp [cntLt, List.countP_append]

theorem cntEq_append (p q : List Nat) (v : Nat) :
    cntEq (p ++ q) v = cntEq p v + cntEq q v := by
  simp [cntEq, List.countP_append]

theorem cntLt_eq_zero_of_le {l : List Nat} {v : Nat} (h : ∀ a ∈ l, v ≤ a) :
    cntLt l v = 0 := by
  simp only [cntLt, List.countP_eq_zero]
  intro a ha
  simpa using Nat.not_lt_of_le (h a ha)

theorem cntEq_eq_zero_of_lt {l : List Nat} {v : Nat} (h : ∀ a ∈ l, v < a) :
    cntEq l v = 0 := by
  simp only [cntEq, List.countP_eq_zero]
  intro a ha
  have := h a ha
  simp only [decide_eq_true_eq]
  omega

theorem cntLt_add_cntEq_le_length (s : List Nat) (v : Nat) :
    cntLt s v + cntEq s v ≤ s.length := by
  induction s with
  | nil => simp [cntLt, cntEq]
  | cons x xs ih =>
    rw [cntLt_cons, cntEq_cons]
    simp only [List.length_cons]
    by_cases h : x < v
    · have h2 : ¬ x = v := by omega
      simp only [if_pos h, if_neg h2]
      omega
    · by_cases h2 : x = v
      · simp only [if_neg h, if_pos h2]
        omega
      · simp only [if_neg h, if_neg h2]
        omega

/-- Block structure of a sorted list: position `k` holds value `v` exactly when
`k` lies in the contiguous block of `v`-occurrences. -/
theorem sorted_getD_eq_iff : ∀ (s : List Nat), List.Sorted (· ≤ ·) s → ∀ (v k : Nat),
    k < s.length → (s.getD k 0 = v ↔ cntLt s v ≤ k ∧ k < cntLt s v + cntEq s v)
  | [], _, v, k, hk => absurd hk (by simp)
  | x :: xs, hs, v, k, hk => by
    have hx : ∀ b ∈ xs, x ≤ b := (List.sorted_cons.mp hs).1
    have hxs : List.Sorted (· ≤ ·) xs := (List.sorted_cons.mp hs).2
    match k with
    | 0 =>
      simp only [List.getD_cons_zero]
      rw [cntLt_cons, cntEq_cons]
      constructor
      · intro hxy
        subst hxy
        have h1 : cntLt xs x = 0 := cntLt_eq_zero_of_le hx
        simp [h1]
      · rintro ⟨h1, h2⟩
        by_cases hlt : x < v
        · simp only [if_pos hlt] at h1
          omega
        · by_cases heq : x = v
          · exact heq
          · have hgt : v < x := by omega
            have hz1 : cntLt xs v = 0 :=
              cntLt_eq_zero_of_le (fun a ha => Nat.le_trans (Nat.le_of_lt hgt) (hx a ha))
            have hz2 : cntEq xs v = 0 :=
              cntEq_eq_zero_of_lt (fun a ha => Nat.lt_of_lt_of_le hgt (hx a ha))
            simp only [if_neg hlt, if_neg heq] at h1 h2
            omega
    | k + 1 =>
      have hk' : k < xs.length := Nat.lt_of_succ_lt_succ hk
      have ih := sorted_getD_eq_iff xs hxs v k hk'
      simp only [List.getD_cons_succ]
      rw [cntLt_cons, cntEq_cons, ih]
      rcases Nat.lt_trichotomy x v with hlt | heq | hgt
      · have hne : ¬ x = v := by omega
        simp only [if_pos hlt, if_neg hne]
        omega
      · subst heq
        have h1 : cntLt xs x = 0 := cntLt_eq_zero_of_le hx
        have e1 : (if x < x then 1 else 0) = 0 := by simp
        have e2 : (if x = x then 1 else 0) = 1 := by simp
        rw [e1, e2, h1]
        omega
      · have hnlt : ¬ x < v := by omega
        have hne : ¬ x = v := by omega
        have hz1 : cntLt xs v = 0 :=
          cntLt_eq_zero_of_le (fun a ha => Nat.le_trans (Nat.le_of_lt hgt) (hx a ha))
        have hz2 : cntEq xs v = 0 :=
          cntEq_eq_zero_of_lt (fun a ha => Nat.lt_of_lt_of_le hgt (hx a ha))
        simp only [if_neg hnlt, if_neg hne]
        omega

/-- The scan of `to_numeric` finds the first unused index holding `ch`. -/
theorem findUnused_eq_some : ∀ (s : List Nat) (u : List Bool) (ch t : Nat),
    u.length = s.length → t < s.length →
    s.getD t 0 = ch → u.getD t false = false →
    (∀ k, k < t → s.getD k 0 = ch → u.getD k false = true) →
    findUnused s u ch = some t
  | [], _, _, _, _, ht, _, _, _ => absurd ht (by simp)
  | x :: xs, [], ch, t, hlen, _, _, _, _ => by simp at hlen
  | x :: xs, b :: us, ch, 0, _, _, hch, hut, _ => by
    simp only [List.getD_cons_zero] at hch hut
    simp [findUnused, hch, hut]
  | x :: xs, b :: us, ch, t + 1, hlen, ht, hch, hut, hbefore => by
    have hhead : ¬ (x = ch ∧ b = false) := by
      rintro ⟨hx, hb⟩
      have := hbefore 0 (Nat.succ_pos t) (by simpa using hx)
      simp only [List.getD_cons_zero] at this
      rw [hb] at this
      exact Bool.false_ne_true this
    have hrec : findUnused xs us ch = some t :=
      findUnused_eq_some xs us ch t (by simpa using hlen) (by simpa using ht)
        (by simpa using hch) (by simpa using hut)
        (fun k hk hsk => by
          have := hbefore (k + 1) (Nat.succ_lt_succ hk) (by simpa using hsk)
          simpa using this)
    simp [findUnused, hhead, hrec]

theorem cntEq_singleton (c v : Nat) : cntEq [c] v = if c = v then 1 else 0 := by
  rw [show ([c] : List Nat) = c :: [] from rfl, cntEq_cons]
  simp [cntEq]

/-- Invariant of the `to_numeric` outer loop: with the characters of `p`
already processed (reflected in `u`), processing `rest` yields the stable
ranks of the corresponding positions of `p ++ rest`. -/
theorem to_numeric_aux_eq : ∀ (rest p : List Nat) (s : List Nat) (u : List Bool),
    List.Sorted (· ≤ ·) s → s.Perm (p ++ rest) → u.length = s.length →
    (∀ k, k < s.length → u.getD k false =
        decide (k < cntLt s (s.getD k 0) + cntEq p (s.getD k 0))) →
    to_numeric_aux rest s u =
      (List.range rest.length).map (fun i => stableRank (p ++ rest) (p.length + i))
  | [], p, s, u, _, _, _, _ => by simp [to_numeric_aux]
  | ch :: rest', p, s, u, hs, hperm, hlen, hinv => by
    have hcLt : cntLt s ch = cntLt (p ++ ch :: rest') ch := by
      simpa [cntLt] using hperm.countP_eq (fun x => decide (x < ch))
    have hcEqs : cntEq s ch = cntEq (p ++ ch :: rest') ch := by
      simpa [cntEq] using hperm.countP_eq (fun x => decide (x = ch))
    have hsplit : cntEq (p ++ ch :: rest') ch = cntEq p ch + cntEq (ch :: rest') ch :=
      cntEq_append p (ch :: rest') ch
    have hhead : cntEq p ch < cntEq s ch := by
      rw [hcEqs, hsplit, cntEq_cons]
      have e : (if ch = ch then 1 else 0) = 1 := by simp
      rw [e]
      omega
    have ht : cntLt s ch + cntEq p ch < s.length :=
      Nat.lt_of_lt_of_le (by omega) (cntLt_add_cntEq_le_length s ch)
    have hst : s.getD (cntLt s ch + cntEq p ch) 0 = ch :=
      (sorted_getD_eq_iff s hs ch _ ht).mpr ⟨Nat.le_add_right _ _, by omega⟩
    have hut : u.getD (cntLt s ch + cntEq p ch) false = false := by
      rw [hinv _ ht, hst]
      simp
    have hbefore : ∀ k, k < cntLt s ch + cntEq p ch → s.getD k 0 = ch →
        u.getD k false = true := by
      intro k hk hsk
      rw [hinv _ (Nat.lt_trans hk ht), hsk]
      simpa using hk
    have hfind : findUnused s u ch = some (cntLt s ch + cntEq p ch) :=
      findUnused_eq_some s u ch _ hlen ht hst hut hbefore
    have hrank0 : stableRank (p ++ ch :: rest') p.length = cntLt s ch + cntEq p ch := by
      rw [stableRank, getD_append_cons, List.take_left, hcLt]
    have hrec : to_numeric_aux rest' s (u.set (cntLt s ch + cntEq p ch) true) =
        (List.range rest'.length).map
          (fun i => stableRank ((p ++ [ch]) ++ rest') ((p ++ [ch]).length + i)) := by
      apply to_numeric_aux_eq rest' (p ++ [ch]) s (u.set (cntLt s ch + cntEq p ch) true) hs
      · simpa using hperm
      · simpa using hlen
      · intro k hk
        have hcEqApp : ∀ v, cntEq (p ++ [ch]) v = cntEq p v + (if ch = v then 1 else 0) := by
          intro v
          rw [cntEq_append, cntEq_singleton]
        by_cases hkt : k = cntLt s ch + cntEq p ch
        · subst hkt
          rw [getD_set_self u _ true false (hlen ▸ ht), hst, hcEqApp, if_pos rfl]
          simp
        · rw [getD_set_ne u _ k true false (fun e => hkt e.symm), hinv k hk, hcEqApp]
          by_cases hv : s.getD k 0 = ch
          · rw [hv, if_pos rfl]
            have : (k < cntLt s ch + cntEq p ch) ↔
                (k < cntLt s ch + (cntEq p ch + 1)) := by omega
            exact decide_eq_decide.mpr this
          · rw [if_neg (fun e => hv e.symm), Nat.add_zero]
    simp only [to_numeric_aux, hfind]
    rw [hrec]
    rw [List.length_cons, List.range_succ_eq_map, List.map_cons, List.map_map]
    congr 1
    · rw [Nat.add_zero, hrank0]
    · apply List.map_congr_left
      intro a _
      have h1 : (p ++ [ch]) ++ rest' = p ++ ch :: rest' := by simp
      have h2 : (p ++ [ch]).length + a = p.length + (a + 1) := by simp; omega
      rw [h1, h2]
      rfl

theorem cntLtEq_le_cntLt (l : List Nat) (vi vj : Nat) (hv : vi < vj) :
    cntLt l vi + cntEq l vi ≤ cntLt l vj := by
  induction l with
  | nil => simp [cntLt, cntEq]
  | cons x xs ih =>
    rw [cntLt_cons, cntEq_cons, cntLt_cons]
    by_cases h1 : x < vi
    · have h2 : ¬ x = vi := by omega
      have h3 : x < vj := by omega
      rw [if_pos h1, if_neg h2, if_pos h3]
      omega
    · by_cases h2 : x = vi
      · have h3 : x < vj := by omega
        rw [if_neg h1, if_pos h2, if_pos h3]
        omega
      · by_cases h3 : x < vj
        · rw [if_neg h1, if_neg h2, if_pos h3]
          omega
        · rw [if_neg h1, if_neg h2, if_neg h3]
          omega

/-- The closed form of `to_numeric`: position `i` receives its stable rank. -/
theorem to_numeric_eq_stableRank (l : List Nat) :
    to_numeric l = (List.range l.length).map (stableRank l) := by
  have hs : List.Sorted (· ≤ ·) (List.insertionSort (· ≤ ·) l) :=
    List.sorted_insertionSort (· ≤ ·) l
  have hperm : (List.insertionSort (· ≤ ·) l).Perm ([] ++ l) := by
    simpa using List.perm_insertionSort (· ≤ ·) l
  have hlen0 : (List.replicate l.length false).length = (List.insertionSort (· ≤ ·) l).length := by
    simp [hperm.length_eq]
  have hinv : ∀ k, k < (List.insertionSort (· ≤ ·) l).length →
      (List.replicate l.length false).getD k false =
        decide (k < cntLt (List.insertionSort (· ≤ ·) l)
            ((List.insertionSort (· ≤ ·) l).getD k 0) +
          cntEq [] ((List.insertionSort (· ≤ ·) l).getD k 0)) := by
    intro k hk
    rw [getD_replicate_false]
    have hle : cntLt (List.insertionSort (· ≤ ·) l)
        ((List.insertionSort (· ≤ ·) l).getD k 0) ≤ k :=
      ((sorted_getD_eq_iff _ hs _ k hk).mp rfl).1
    have hz : cntEq ([] : List Nat) ((List.insertionSort (· ≤ ·) l).getD k 0) = 0 := by
      simp [cntEq]
    rw [hz]
    symm
    simpa using Nat.not_lt_of_le hle
  have h := to_numeric_aux_eq l [] (List.insertionSort (· ≤ ·) l)
    (List.replicate l.length false) hs hperm hlen0 hinv
  rw [to_numeric, h]
  simp

theorem getD_eq_getElem_of_lt {α : Type} [Inhabited α] :
    ∀ (l : List α) (i : Nat) (d : α), i < l.length → ∃ h : i < l.length, l.getD i d = l[i]
  | _ :: _, 0, _, h => ⟨h, rfl⟩
  | _ :: xs, i + 1, d, h => by
    obtain ⟨h', e⟩ := getD_eq_getElem_of_lt xs i d (Nat.lt_of_succ_lt_succ h)
    exact ⟨h, by simpa using e⟩

theorem cntEq_take_le (l : List Nat) (v : Nat) {m n : Nat} (h : m ≤ n) :
    cntEq (l.take m) v ≤ cntEq (l.take n) v := by
  have h1 : (l.take n).take m = l.take m := by
    rw [List.take_take, Nat.min_eq_left h]
  have h2 : l.take n = l.take m ++ (l.take n).drop m := by
    rw [← h1, List.take_append_drop]
  rw [h2, cntEq_append]
  omega

theorem cntEq_take_succ_self (l : List Nat) (i : Nat) (hi : i < l.length) :
    cntEq (l.take (i + 1)) (l.getD i 0) = cntEq (l.take i) (l.getD i 0) + 1 := by
  have h1 : l.take (i + 1) = l.take i ++ [l.getD i 0] := by
    rw [List.take_succ]
    congr 1
    have := List.getElem?_eq_getElem hi
    simp [this, List.getD]
  rw [h1, cntEq_append, cntEq_singleton, if_pos rfl]

theorem cntEq_take_lt (l : List Nat) (i : Nat) (hi : i < l.length) :
    cntEq (l.take i) (l.getD i 0) < cntEq l (l.getD i 0) := by
  have h1 := cntEq_take_succ_self l i hi
  have h2 : cntEq (l.take (i + 1)) (l.getD i 0) ≤ cntEq (l.take l.length) (l.getD i 0) :=
    cntEq_take_le l _ hi
  rw [List.take_length] at h2
  omega

/-- Every stable rank of a position is below the length. -/
theorem stableRank_lt_length (l : List Nat) (i : Nat) (hi : i < l.length) :
    stableRank l i < l.length := by
  have h1 := cntEq_take_lt l i hi
  have h2 := cntLt_add_cntEq_le_length l (l.getD i 0)
  rw [stableRank]
  omega

/-- Stable ranks respect value order. -/
theorem stableRank_lt_of_val_lt (l : List Nat) (i j : Nat) (hi : i < l.length)
    (_hj : j < l.length) (hv : l.getD i 0 < l.getD j 0) :
    stableRank l i < stableRank l j := by
  have h1 := cntEq_take_lt l i hi
  have h2 : cntLt l (l.getD i 0) + cntEq l (l.getD i 0) ≤ cntLt l (l.getD j 0) :=
    cntLtEq_le_cntLt l _ _ hv
  have h3 : cntLt l (l.getD j 0) ≤ stableRank l j := Nat.le_add_right _ _
  rw [stableRank]
  omega

/-- Stable ranks of equal values respect position order. -/
theorem stableRank_lt_of_pos_lt (l : List Nat) (i j : Nat) (hij : i < j)
    (hi : i < l.length) (_hj : j < l.length) (hv : l.getD i 0 = l.getD j 0) :
    stableRank l i < stableRank l j := by
  have h1 := cntEq_take_succ_self l i hi
  have h2 : cntEq (l.take (i + 1)) (l.getD i 0) ≤ cntEq (l.take j) (l.getD i 0) :=
    cntEq_take_le l _ hij
  rw [stableRank, stableRank, ← hv]
  omega

theorem stableRank_injOn (l : List Nat) (i j : Nat) (hi : i < l.length) (hj : j < l.length)
    (h : stableRank l i = stableRank l j) : i = j := by
  by_contra hij
  rcases Nat.lt_trichotomy (l.getD i 0) (l.getD j 0) with hv | hv | hv
  · exact absurd h (Nat.ne_of_lt (stableRank_lt_of_val_lt l i j hi hj hv))
  · rcases Nat.lt_or_ge i j with hlt | hge
    · exact absurd h (Nat.ne_of_lt (stableRank_lt_of_pos_lt l i j hlt hi hj hv))
    · have hgt : j < i := Nat.lt_of_le_of_ne hge (fun e => hij e.symm)
      exact absurd h.symm (Nat.ne_of_lt (stableRank_lt_of_pos_lt l j i hgt hj hi hv.symm))
  · exact absurd h.symm (Nat.ne_of_lt (stableRank_lt_of_val_lt l j i hj hi hv))

/-- The ranks produced by `to_numeric` form a permutation of `0..len-1`. -/
theorem to_numeric_perm_range (l : List Nat) :
    (to_numeric l).Perm (List.range l.length) := by
  rw [to_numeric_eq_stableRank]
  have hnodup : ((List.range l.length).map (stableRank l)).Nodup := by
    apply List.Nodup.map_on _ (List.nodup_range l.length)
    intro x hx y hy hxy
    exact stableRank_injOn l x y (List.mem_range.mp hx) (List.mem_range.mp hy) hxy
  have hmem : ∀ a ∈ (List.range l.length).map (stableRank l), a < l.length := by
    intro a ha
    obtain ⟨i, hi, rfl⟩ := List.mem_map.mp ha
    exact stableRank_lt_length l i (List.mem_range.mp hi)
  rw [List.perm_ext_iff_of_nodup hnodup (List.nodup_range l.length)]
  intro a
  constructor
  · intro ha
    exact List.mem_range.mpr (hmem a ha)
  · intro ha
    have hlen : ((List.range l.length).map (stableRank l)).length = l.length := by simp
    have hsub : ((List.range l.length).map (stableRank l)).toFinset ⊆ Finset.range l.length := by
      intro b hb
      exact Finset.mem_range.mpr (hmem b (List.mem_toFinset.mp hb))
    have hcard : ((List.range l.length).map (stableRank l)).toFinset.card = l.length := by
      rw [List.toFinset_card_of_nodup hnodup, hlen]
    have heq : ((List.range l.length).map (stableRank l)).toFinset = Finset.range l.length :=
      Finset.eq_of_subset_of_card_le hsub (by rw [hcard, Finset.card_range])
    have : a ∈ ((List.range l.length).map (stableRank l)).toFinset := by
      rw [heq]
      exact Finset.mem_range.mpr (List.mem_range.mp ha)
    exact List.mem_toFinset.mp this

theorem to_numeric_length (l : List Nat) : (to_numeric l).length = l.length := by
  rw [to_numeric_eq_stableRank]
  simp

theorem setTrueFrom_length : ∀ (n : Nat) (mask : List Bool) (idx : Nat),
    (setTrueFrom mask idx n).length = mask.length
  | 0, _, _ => rfl
  | n + 1, mask, idx => by
    rw [setTrueFrom, setTrueFrom_length n, List.length_set]

theorem setTrueFrom_getD : ∀ (n : Nat) (mask : List Bool) (idx j : Nat),
    ((setTrueFrom mask idx n).getD j false = true ↔
      mask.getD j false = true ∨ (idx ≤ j ∧ j < idx + n ∧ j < mask.length))
  | 0, mask, idx, j => by
    simp only [setTrueFrom]
    constructor
    · exact fun h => Or.inl h
    · rintro (h | ⟨h1, h2, h3⟩)
      · exact h
      · omega
  | n + 1, mask, idx, j => by
    rw [setTrueFrom, setTrueFrom_getD n]
    rw [List.length_set]
    by_cases hj : j = idx
    · subst hj
      by_cases hlen : j < mask.length
      · rw [getD_set_self mask j true false hlen]
        constructor
        · intro h
          rcases h with h | h
          · exact Or.inr ⟨Nat.le_refl j, by omega⟩
          · exact Or.inr ⟨Nat.le_refl j, by omega⟩
        · intro _
          exact Or.inl rfl
      · have hset : mask.set j true = mask := by
          apply List.set_eq_of_length_le
          omega
        rw [hset]
        constructor
        · rintro (h | ⟨h1, h2, h3⟩)
          · exact Or.inl h
          · exact absurd h1 (by omega)
        · rintro (h | ⟨h1, h2, h3⟩)
          · exact Or.inl h
          · exact absurd h3 hlen
    · rw [getD_set_ne mask idx j true false (fun e => hj e.symm)]
      constructor
      · rintro (h | ⟨h1, h2, h3⟩)
        · exact Or.inl h
        · exact Or.inr ⟨by omega, by omega, h3⟩
      · rintro (h | ⟨h1, h2, h3⟩)
        · exact Or.inl h
        · exact Or.inr ⟨by omega, by omega, h3⟩

theorem bandLoop_length : ∀ (fuel : Nat) (klen rows row col : Nat) (mask : List Bool),
    (bandLoop klen rows fuel row col mask).length = mask.length
  | 0, _, _, _, _, _ => rfl
  | fuel + 1, klen, rows, row, col, mask => by
    rw [bandLoop]
    by_cases h : row < rows ∧ col < klen
    · rw [if_pos h, bandLoop_length fuel, setTrueFrom_length]
    · rw [if_neg h]

/-- Cells painted by the band loop started at `(row, col)`: those `(r, c)`
with `row ≤ r` and `col + (r - row) ≤ c` (within the grid). -/
theorem bandLoop_getD : ∀ (fuel : Nat) (klen rows row col : Nat) (mask : List Bool),
    mask.length = rows * klen → rows ≤ row + fuel →
    ∀ r c, r < rows → c < klen →
    ((bandLoop klen rows fuel row col mask).getD (r * klen + c) false = true ↔
      mask.getD (r * klen + c) false = true ∨ (row ≤ r ∧ col + (r - row) ≤ c))
  | 0, klen, rows, row, col, mask, _, hfuel, r, c, hr, _ => by
    rw [bandLoop]
    constructor
    · exact fun h => Or.inl h
    · rintro (h | ⟨h1, h2⟩)
      · exact h
      · omega
  | fuel + 1, klen, rows, row, col, mask, hlen, hfuel, r, c, hr, hc => by
    rw [bandLoop]
    by_cases h : row < rows ∧ col < klen
    · rw [if_pos h]
      rw [bandLoop_getD fuel klen rows (row + 1) (col + 1) _
        (by rw [setTrueFrom_length, hlen]) (by omega) r c hr hc]
      rw [setTrueFrom_getD, hlen]
      have hidx : r * klen + c < rows * klen := by
        have h1 : r + 1 ≤ rows := hr
        have h2 : (r + 1) * klen ≤ rows * klen := Nat.mul_le_mul_right klen h1
        have h3 : (r + 1) * klen = r * klen + klen := Nat.succ_mul r klen
        omega
      have hcell : (row * klen + col ≤ r * klen + c ∧ r * klen + c < row * klen + (klen - col)
            + col) ↔ (r = row ∧ col ≤ c) := by
        constructor
        · rintro ⟨h1, h2⟩
          have hrow_le : row ≤ r := by
            by_contra hcon
            have h3 : r + 1 ≤ row := by omega
            have h4 : (r + 1) * klen ≤ row * klen := Nat.mul_le_mul_right klen h3
            have h5 : (r + 1) * klen = r * klen + klen := Nat.succ_mul r klen
            omega
          have hrow_ge : r ≤ row := by
            by_contra hcon
            have h3 : row + 1 ≤ r := by omega
            have h4 : (row + 1) * klen ≤ r * klen := Nat.mul_le_mul_right klen h3
            have h5 : (row + 1) * klen = row * klen + klen := Nat.succ_mul row klen
            omega
          have : r = row := Nat.le_antisymm hrow_ge hrow_le
          subst this
          omega
        · rintro ⟨h1, h2⟩
          subst h1
          omega
      constructor
      · intro hcl
        rcases hcl with hcl | hcl
        · rcases hcl with hcl | hcl
          · exact Or.inl hcl
          · have := hcell.mp ⟨hcl.1, by omega⟩
            exact Or.inr ⟨by omega, by omega⟩
        · exact Or.inr ⟨by omega, by omega⟩
      · intro hcl
        rcases hcl with hcl | hcl
        · exact Or.inl (Or.inl hcl)
        · rcases Nat.eq_or_lt_of_le hcl.1 with heq | hlt
          · subst heq
            refine Or.inl (Or.inr ?_)
            have := hcell.mpr ⟨rfl, by omega⟩
            exact ⟨this.1, by omega, hidx⟩
          · exact Or.inr ⟨by omega, by omega⟩
    · rw [if_neg h]
      constructor
      · exact fun hh => Or.inl hh
      · rintro (hh | ⟨h1, h2⟩)
        · exact hh
        · exfalso
          omega

theorem get_triangular_mask_eq_two (tkey : List Nat) (len : Nat) (h2 : 2 ≤ tkey.length) :
    get_triangular_mask tkey len =
      bandLoop tkey.length ((len + tkey.length - 1) / tkey.length)
        ((len + tkey.length - 1) / tkey.length) 0 (tkey.indexOf 1)
        (bandLoop tkey.length ((len + tkey.length - 1) / tkey.length)
          ((len + tkey.length - 1) / tkey.length) 0 (tkey.indexOf 0)
          (List.replicate (((len + tkey.length - 1) / tkey.length) * tkey.length) false)) := by
  simp only [get_triangular_mask]
  have hmin : min 2 tkey.length = 2 := by omega
  rw [hmin]
  rfl

/-- Claim C4 (triangular membership): within the grid, a cell `(r, c)` is
triangular exactly when `c ≥ p0 + r` or `c ≥ p1 + r`, where `p0`, `p1` are the
columns of ranks 0 and 1 of the key. -/
theorem triangular_mask_spec (key : List Nat) (len : Nat) (h2 : 2 ≤ key.length) :
    ∀ r c, r < (len + key.length - 1) / key.length → c < key.length →
      ((get_triangular_mask (to_numeric key) len).getD (r * key.length + c) false = true ↔
        (to_numeric key).indexOf 0 + r ≤ c ∨ (to_numeric key).indexOf 1 + r ≤ c) := by
  intro r c hr hc
  have hkl : (to_numeric key).length = key.length := to_numeric_length key
  rw [← hkl] at hr hc ⊢
  set tkey := to_numeric key with htk
  set rows := (len + tkey.length - 1) / tkey.length with hrows
  have h2' : 2 ≤ tkey.length := by omega
  rw [get_triangular_mask_eq_two tkey len h2', ← hrows]
  have hlen1 : (bandLoop tkey.length rows rows 0 (tkey.indexOf 0)
      (List.replicate (rows * tkey.length) false)).length = rows * tkey.length := by
    rw [bandLoop_length, List.length_replicate]
  rw [bandLoop_getD rows tkey.length rows 0 (tkey.indexOf 1) _ hlen1 (by omega) r c hr hc]
  rw [bandLoop_getD rows tkey.length rows 0 (tkey.indexOf 0) _
    (by rw [List.length_replicate]) (by omega) r c hr hc]
  rw [getD_replicate_false]
  constructor
  · rintro ((h | ⟨_, h⟩) | ⟨_, h⟩)
    · exact absurd h (by simp)
    · exact Or.inl (by omega)
    · exact Or.inr (by omega)
  · rintro (h | h)
    · exact Or.inl (Or.inr ⟨Nat.zero_le r, by omega⟩)
    · exact Or.inr ⟨Nat.zero_le r, by omega⟩

theorem writeCol_length (src : List Nat) (klen : Nat) : ∀ (n dstIdx srcIdx : Nat)
    (dst : List Nat), (writeCol src klen dstIdx srcIdx n dst).length = dst.length
  | 0, _, _, _ => rfl
  | n + 1, dstIdx, srcIdx, dst => by
    rw [writeCol, writeCol_length src klen n, List.length_set]

/-- Positions not on the written stride are unchanged by `writeCol`. -/
theorem writeCol_getD_untouched (src : List Nat) (klen : Nat) : ∀ (n dstIdx srcIdx p : Nat)
    (dst : List Nat), (∀ m, m < n → p ≠ dstIdx + m * klen) →
    (writeCol src klen dstIdx srcIdx n dst).getD p 0 = dst.getD p 0
  | 0, _, _, _, _, _ => rfl
  | n + 1, dstIdx, srcIdx, p, dst, hp => by
    rw [writeCol, writeCol_getD_untouched src klen n _ _ _ _
      (fun m hm => by
        have := hp (m + 1) (Nat.succ_lt_succ hm)
        rw [Nat.succ_mul] at this
        intro e
        exact this (by omega))]
    exact getD_set_ne dst dstIdx p _ 0 (fun e => hp 0 (Nat.succ_pos n) (by omega))

/-- The `m`-th cell written by `writeCol` holds the `m`-th source byte. -/
theorem writeCol_getD (src : List Nat) (klen : Nat) (hklen : 0 < klen) :
    ∀ (n dstIdx srcIdx m : Nat) (dst : List Nat), m < n →
    dstIdx + m * klen < dst.length →
    (writeCol src klen dstIdx srcIdx n dst).getD (dstIdx + m * klen) 0 =
      src.getD (srcIdx + m) 0
  | 0, _, _, m, _, hm, _ => absurd hm (Nat.not_lt_zero m)
  | n + 1, dstIdx, srcIdx, m, dst, hm, hlt => by
    rw [writeCol]
    match m with
    | 0 =>
      rw [writeCol_getD_untouched src klen n _ _ _ _ (fun m' hm' => by omega)]
      simp only [Nat.zero_mul, Nat.add_zero] at hlt ⊢
      rw [getD_set_self dst dstIdx _ 0 hlt]
    | m + 1 =>
      have he : dstIdx + (m + 1) * klen = (dstIdx + klen) + m * klen := by
        rw [Nat.succ_mul]
        omega
      rw [he]
      rw [writeCol_getD src klen hklen n (dstIdx + klen) (srcIdx + 1) m _
        (Nat.lt_of_succ_lt_succ hm) (by rw [List.length_set]; omega)]
      congr 1
      omega

theorem howMany_write_lt {tkey : List Nat} {srcLen j k : Nat} (hklen : 0 < tkey.length)
    (hind : tkey.indexOf j < tkey.length) (hk : k < howMany tkey srcLen j)
    (_hpos : 0 < srcLen) :
    tkey.indexOf j + k * tkey.length < srcLen := by
  have hdm := Nat.div_add_mod srcLen tkey.length
  have hextra : srcLen % tkey.length < tkey.length := Nat.mod_lt srcLen hklen
  rw [howMany] at hk
  by_cases hcase : tkey.indexOf j < srcLen % tkey.length
  · rw [if_pos hcase] at hk
    have h1 : k ≤ srcLen / tkey.length := by omega
    have h2 : k * tkey.length ≤ (srcLen / tkey.length) * tkey.length :=
      Nat.mul_le_mul_right _ h1
    have h3 : tkey.length * (srcLen / tkey.length) = (srcLen / tkey.length) * tkey.length :=
      Nat.mul_comm _ _
    omega
  · rw [if_neg hcase] at hk
    have h1 : k + 1 ≤ srcLen / tkey.length := by omega
    have h2 : (k + 1) * tkey.length ≤ (srcLen / tkey.length) * tkey.length :=
      Nat.mul_le_mul_right _ h1
    have h3 : tkey.length * (srcLen / tkey.length) = (srcLen / tkey.length) * tkey.length :=
      Nat.mul_comm _ _
    rw [Nat.succ_mul] at h2
    omega

/-- Cells of the column at `ind < klen` have index `≡ ind (mod klen)`. -/
theorem stride_mod {ind k klen : Nat} (hind : ind < klen) : (ind + k * klen) % klen = ind := by
  rw [Nat.add_mul_mod_self_right]
  exact Nat.mod_eq_of_lt hind

/-- The decrypt loop does not touch columns whose position differs from every
remaining rank's column. -/
theorem trDecryptLoop_getD_untouched (tkey src : List Nat) (scol extra : Nat) :
    ∀ (js : List Nat) (current : Nat) (dst : List Nat) (p : Nat),
    (∀ j ∈ js, tkey.indexOf j < tkey.length) →
    (∀ j ∈ js, p % tkey.length ≠ tkey.indexOf j) →
    (trDecryptLoop tkey src scol extra js current dst).getD p 0 = dst.getD p 0
  | [], _, _, _, _, _ => rfl
  | j :: js, current, dst, p, hind, hp => by
    rw [trDecryptLoop]
    rw [trDecryptLoop_getD_untouched tkey src scol extra js _ _ p
      (fun a ha => hind a (List.mem_cons_of_mem j ha))
      (fun a ha => hp a (List.mem_cons_of_mem j ha))]
    apply writeCol_getD_untouched
    intro m _ he
    have h1 : p % tkey.length = tkey.indexOf j := by
      rw [he, stride_mod (hind j (List.mem_cons_self j js))]
    exact hp j (List.mem_cons_self j js) h1

/-- Main characterization of the decrypt loop: the cell `k` of the column of
rank `j` receives the source byte at the rank's running offset plus `k`. -/
theorem trDecryptLoop_getD (tkey src : List Nat) (hklen : 0 < tkey.length)
    (hpos : 0 < src.length) :
    ∀ (js : List Nat) (current : Nat) (dst : List Nat),
    dst.length = src.length → js.Nodup → (∀ a ∈ js, a ∈ tkey) →
    ∀ j ∈ js, ∀ k, k < howMany tkey src.length j →
    (trDecryptLoop tkey src (src.length / tkey.length) (src.length % tkey.length)
        js current dst).getD (tkey.indexOf j + k * tkey.length) 0 =
      src.getD (current + offsetIn tkey src.length js j + k) 0
  | [], _, _, _, _, _, j, hj, _, _ => absurd hj (List.not_mem_nil j)
  | j0 :: js', current, dst, hdlen, hnodup, hmem, j, hj, k, hk => by
    have hj0_mem : j0 ∈ tkey := hmem j0 (List.mem_cons_self j0 js')
    have hind0 : tkey.indexOf j0 < tkey.length := List.indexOf_lt_length.mpr hj0_mem
    have hhm : (if tkey.indexOf j0 < src.length % tkey.length
        then src.length / tkey.length + 1 else src.length / tkey.length) =
        howMany tkey src.length j0 := rfl
    rw [trDecryptLoop]
    by_cases hjj : j = j0
    · subst hjj
      have hjind : tkey.indexOf j < tkey.length := hind0
      rw [trDecryptLoop_getD_untouched tkey src _ _ js' _ _ _
        (fun a ha => List.indexOf_lt_length.mpr (hmem a (List.mem_cons_of_mem j ha)))
        (fun a ha he => by
          rw [stride_mod hjind] at he
          have ha_mem : a ∈ tkey := hmem a (List.mem_cons_of_mem j ha)
          have hlt_a : tkey.indexOf a < tkey.length := List.indexOf_lt_length.mpr ha_mem
          have e1 : tkey[tkey.indexOf a] = a := List.getElem_indexOf hlt_a
          have e2 : tkey[tkey.indexOf j] = j := List.getElem_indexOf hjind
          have : a = j := by
            rw [← e1, ← e2]
            congr 1
            omega
          subst this
          exact (List.nodup_cons.mp hnodup).1 ha)]
      rw [hhm, writeCol_getD src tkey.length hklen _ _ _ k dst hk
        (by rw [hdlen]; exact howMany_write_lt hklen hjind hk hpos)]
      rw [offsetIn, if_pos rfl, Nat.add_zero]
    · have hj' : j ∈ js' := by
        rcases List.mem_cons.mp hj with h | h
        · exact absurd h hjj
        · exact h
      rw [hhm]
      rw [trDecryptLoop_getD tkey src hklen hpos js' (current + howMany tkey src.length j0)
        _ (by rw [writeCol_length, hdlen]) (List.nodup_cons.mp hnodup).2
        (fun a ha => hmem a (List.mem_cons_of_mem j0 ha)) j hj' k hk]
      rw [offsetIn, if_neg hjj]
      congr 1
      omega

theorem offsetIn_range' (tkey : List Nat) (L : Nat) :
    ∀ (n s j : Nat), s ≤ j → j < s + n →
    offsetIn tkey L (List.range' s n) j =
      ((List.range' s (j - s)).map (howMany tkey L)).sum
  | 0, s, j, hs, hj => absurd hj (by omega)
  | n + 1, s, j, hs, hj => by
    rw [List.range'_succ, offsetIn]
    by_cases hjs : j = s
    · rw [if_pos hjs, hjs, Nat.sub_self]
      rfl
    · rw [if_neg hjs]
      rw [offsetIn_range' tkey L n (s + 1) j (by omega) (by omega)]
      have he : j - s = (j - (s + 1)) + 1 := by omega
      rw [he, List.range'_succ, List.map_cons, List.sum_cons]

theorem tr_mem_of_lt_length (key : List Nat) {a : Nat} (ha : a < key.length) :
    a ∈ to_numeric key := by
  have hperm := to_numeric_perm_range key
  exact hperm.mem_iff.mpr (List.mem_range.mpr ha)

/-- Claim C5, amended: in `Transposition::decrypt` with a non-empty key and
non-empty input, the column of rank `j` (at position `indexOf j`) receives
`howMany j` cells (`scol + 1` exactly when its position is below
`len mod klen`), cell `k` holding the source byte at the cumulative offset of
the ranks before `j` plus `k`; the grid is the row-major output. -/
theorem trDecrypt_spec (key src : List Nat) (hkey : key ≠ []) (hsrc : src ≠ []) :
    ∀ j, j < key.length → ∀ k, k < howMany (to_numeric key) src.length j →
      (trDecrypt (to_numeric key) src).getD
          ((to_numeric key).indexOf j + k * (to_numeric key).length) 0 =
        src.getD ((((List.range j).map (howMany (to_numeric key) src.length)).sum) + k) 0 := by
  intro j hj k hk
  have hkl : (to_numeric key).length = key.length := to_numeric_length key
  have hklen : 0 < (to_numeric key).length := by
    rw [hkl]
    exact List.length_pos.mpr hkey
  have hpos : 0 < src.length := List.length_pos.mpr hsrc
  have hcond : ¬ ((to_numeric key).length = 0 ∨ src.isEmpty) := by
    rintro (h | h)
    · omega
    · exact hsrc (List.isEmpty_iff.mp h)
  rw [trDecrypt, if_neg hcond]
  rw [trDecryptLoop_getD (to_numeric key) src hklen hpos (List.range (to_numeric key).length)
    0 (List.replicate src.length 0) (List.length_replicate _ _)
    (List.nodup_range _)
    (fun a ha => tr_mem_of_lt_length key (hkl ▸ List.mem_range.mp ha))
    j (List.mem_range.mpr (hkl ▸ hj)) k hk]
  have ho : offsetIn (to_numeric key) src.length (List.range (to_numeric key).length) j =
      ((List.range j).map (howMany (to_numeric key) src.length)).sum := by
    rw [List.range_eq_range', offsetIn_range' (to_numeric key) src.length
      (to_numeric key).length 0 j (Nat.zero_le j) (by omega), Nat.sub_zero,
      ← List.range_eq_range']
  rw [ho, Nat.zero_add]

theorem emit_length_le (e : EncEntry) : e.emit.length ≤ 2 := by
  rw [EncEntry.emit]
  by_cases h : e.len = 2
  · rw [if_pos h]
    simp
  · rw [if_neg h]
    simp

theorem scEncByte_length_le (c : StraddlingCheckerboard) (ch : Nat) :
    (scEncByte c ch).length ≤ 6 := by
  rw [scEncByte]
  by_cases h1 : isAsciiDigit ch = true
  · rw [if_pos h1]
    by_cases h2 : (c.enc_table 47).len ≠ 0
    · rw [if_pos h2]
      have := emit_length_le (c.enc_table 47)
      simp only [List.length_append, List.length_cons, List.length_nil]
      omega
    · rw [if_neg h2]
      simp
  · rw [if_neg h1]
    by_cases h2 : (c.enc_table ch).len ≠ 0
    · rw [if_pos h2]
      have := emit_length_le (c.enc_table ch)
      omega
    · rw [if_neg h2]
      simp

theorem scEncByte_length_le_two (c : StraddlingCheckerboard) (ch : Nat)
    (h : isAsciiDigit ch = false) : (scEncByte c ch).length ≤ 2 := by
  rw [scEncByte, if_neg (by rw [h]; exact Bool.false_ne_true)]
  by_cases h2 : (c.enc_table ch).len ≠ 0
  · rw [if_pos h2]
    exact emit_length_le (c.enc_table ch)
  · rw [if_neg h2]
    simp

/-- Claim C3, amended: the checkerboard stage writes at most `6 × len(src)`
bytes (worst case marker + digit + digit + marker = 2+2+2 per escaped digit),
and at most `2 × len(src)` bytes when the plaintext holds no ASCII digit; the
`3 × len(src)` bound of the claim holds only in the digit-free case. -/
theorem scEncrypt_length_bound (c : StraddlingCheckerboard) (src : List Nat) :
    (scEncrypt c src).length ≤ 6 * src.length ∧
    ((∀ b ∈ src, isAsciiDigit b = false) → (scEncrypt c src).length ≤ 2 * src.length) := by
  induction src with
  | nil => simp [scEncrypt]
  | cons x xs ih =>
    rw [scEncrypt] at ih ⊢
    rw [List.flatMap_cons]
    constructor
    · have h1 := scEncByte_length_le c x
      simp only [List.length_append, List.length_cons, List.length_nil]
      omega
    · intro hall
      have h1 := scEncByte_length_le_two c x (hall x (List.mem_cons_self x xs))
      have h2 := ih.2 (fun b hb => hall b (List.mem_cons_of_mem x hb))
      simp only [List.length_append, List.length_cons, List.length_nil]
      omega

/-- Claim C3, counterexample part: on the checkerboard of the end-to-end VIC
fixture, a single-digit plaintext produces 6 output bytes — more than
`3 × len(src) = 3` — so the `src.len() * 3` intermediate buffer of
`VicCipher::encrypt` is too small for digit-bearing plaintexts. -/
theorem scEncrypt_three_times_counterexample :
    (scEncrypt vic_fixture.sc (strBytes "1")).length = 6 ∧
    ¬ ((scEncrypt vic_fixture.sc (strBytes "1")).length ≤ 3 * (strBytes "1").length) := by
  decide

theorem scPush_length_le {dstLen : Nat} {out : List Nat} (h : out.length ≤ dstLen) (x : Nat) :
    (scPush dstLen out x).length ≤ dstLen := by
  rw [scPush]
  split
  · simp only [List.length_append, List.length_cons, List.length_nil]
    omega
  · exact h

theorem scStep_snd_length_le (c : StraddlingCheckerboard) (src : List Nat)
    {dstLen : Nat} (i' ptc db_len : Nat) {out : List Nat} (h : out.length ≤ dstLen) :
    (scStep c src dstLen i' ptc db_len out).2.length ≤ dstLen := by
  rw [scStep]
  split
  · exact scPush_length_le h _
  · split
    · exact scPush_length_le h _
    · exact h

/-- The capped decrypt loop never grows the output beyond the capacity. -/
theorem scDecryptLoop_length_le (c : StraddlingCheckerboard) (src : List Nat) (dstLen : Nat) :
    ∀ (fuel i : Nat) (out : List Nat), out.length ≤ dstLen →
    (scDecryptLoop c src dstLen fuel i out).length ≤ dstLen
  | 0, _, _, h => h
  | fuel + 1, i, out, h => by
    rw [scDecryptLoop]
    by_cases h1 : i < src.length
    · rw [if_pos h1]
      by_cases h2 : isAsciiDigit (src.getD i 0) = true
      · rw [if_pos h2]
        by_cases h3 : c.longc_mask (src.getD i 0 - 48) = true
        · rw [if_pos h3]
          by_cases h4 : i + 1 < src.length
          · rw [if_pos h4]
            by_cases h5 : isAsciiDigit (src.getD (i + 1) 0) = true
            · rw [if_pos h5]
              exact scDecryptLoop_length_le c src dstLen fuel _ _
                (scStep_snd_length_le c src _ _ _ h)
            · rw [if_neg h5]
              exact scDecryptLoop_length_le c src dstLen fuel _ _ h
          · rw [if_neg h4]
            exact scDecryptLoop_length_le c src dstLen fuel _ _ h
        · rw [if_neg h3]
          exact scDecryptLoop_length_le c src dstLen fuel _ _
            (scStep_snd_length_le c src _ _ _ h)
      · rw [if_neg h2]
        exact scDecryptLoop_length_le c src dstLen fuel _ _ h
    · rw [if_neg h1]
      exact h

theorem scPush_take {capA capB : Nat} (hc : capA ≤ capB) (out : List Nat) (x : Nat) :
    scPush capA (out.take capA) x = (scPush capB out x).take capA := by
  rw [scPush, scPush]
  by_cases h1 : out.length < capA
  · have e1 : out.take capA = out := List.take_of_length_le (by omega)
    rw [e1, if_pos h1, if_pos (by omega : out.length < capB),
      List.take_of_length_le (by
        simp only [List.length_append, List.length_cons, List.length_nil]
        omega)]
  · have e1 : (out.take capA).length = capA := by
      simp only [List.length_take]
      omega
    rw [e1, if_neg (Nat.lt_irrefl capA)]
    by_cases h2 : out.length < capB
    · rw [if_pos h2, List.take_append_of_le_length (by omega)]
    · rw [if_neg h2]

theorem scStep_take (c : StraddlingCheckerboard) (src : List Nat)
    {capA capB : Nat} (hc : capA ≤ capB) (i' ptc db_len : Nat) (out : List Nat) :
    scStep c src capA i' ptc db_len (out.take capA) =
      ((scStep c src capB i' ptc db_len out).1,
        (scStep c src capB i' ptc db_len out).2.take capA) := by
  rw [scStep, scStep]
  split
  · rw [scPush_take hc]
  · split
    · rw [scPush_take hc]
    · rfl

/-- A tighter capacity only truncates: the capped run is the `take` of any
larger-capacity run on the same input. -/
theorem scDecryptLoop_take (c : StraddlingCheckerboard) (src : List Nat)
    {capA capB : Nat} (hc : capA ≤ capB) :
    ∀ (fuel i : Nat) (out : List Nat),
    scDecryptLoop c src capA fuel i (out.take capA) =
      (scDecryptLoop c src capB fuel i out).take capA
  | 0, _, _ => rfl
  | fuel + 1, i, out => by
    rw [scDecryptLoop, scDecryptLoop]
    by_cases h1 : i < src.length
    · simp only [if_pos h1]
      by_cases h2 : isAsciiDigit (src.getD i 0) = true
      · simp only [if_pos h2]
        by_cases h3 : c.longc_mask (src.getD i 0 - 48) = true
        · simp only [if_pos h3]
          by_cases h4 : i + 1 < src.length
          · simp only [if_pos h4]
            by_cases h5 : isAsciiDigit (src.getD (i + 1) 0) = true
            · simp only [if_pos h5]
              rw [scStep_take c src hc]
              exact scDecryptLoop_take c src hc fuel
                (scStep c src capB (i + 2)
                  (c.dec2 (src.getD i 0 - 48) (src.getD (i + 1) 0 - 48)) 2 out).1
                (scStep c src capB (i + 2)
                  (c.dec2 (src.getD i 0 - 48) (src.getD (i + 1) 0 - 48)) 2 out).2
            · simp only [if_neg h5]
              exact scDecryptLoop_take c src hc fuel _ _
          · simp only [if_neg h4]
            exact scDecryptLoop_take c src hc fuel _ _
        · simp only [if_neg h3]
          rw [scStep_take c src hc]
          exact scDecryptLoop_take c src hc fuel
            (scStep c src capB (i + 1) (c.dec1 (src.getD i 0 - 48)) 1 out).1
            (scStep c src capB (i + 1) (c.dec1 (src.getD i 0 - 48)) 1 out).2
      · simp only [if_neg h2]
        exact scDecryptLoop_take c src hc fuel _ _
    · simp only [if_neg h1]

/-- Claim C10: `StraddlingCheckerboard::decrypt` writes at most `dst.len()`
bytes — the returned count never exceeds the capacity, and a smaller buffer
only truncates the decoded output. -/
theorem scDecrypt_capacity (c : StraddlingCheckerboard) (dstLen : Nat) (src : List Nat) :
    (scDecrypt c dstLen src).length ≤ dstLen ∧
    (∀ m, dstLen ≤ m → scDecrypt c dstLen src = (scDecrypt c m src).take dstLen) := by
  constructor
  · exact scDecryptLoop_length_le c src dstLen src.length 0 [] (Nat.zero_le dstLen)
  · intro m hm
    rw [scDecrypt, scDecrypt]
    have h1 := scDecryptLoop_take c src hm src.length 0 []
    simpa using h1

/-- Claim C7, amended: on a checkerboard whose escape marker is mapped to a
two-digit code made of long-prefix digits that decodes back to the marker (as
holds for every board built over an alphabet containing the marker, with
distinct digit prefixes and the marker outside the high-frequency set),
encrypting an ASCII digit emits marker ++ digit ++ digit ++ marker and
decrypting that sequence restores the single literal digit. -/
theorem sc_digit_escape (c : StraddlingCheckerboard) (m0 m1 d dstLen : Nat)
    (hmarker : c.enc_table 47 = ⟨2, m0, m1⟩)
    (hm0 : isAsciiDigit m0 = true) (hm1 : isAsciiDigit m1 = true)
    (hmask : c.longc_mask (m0 - 48) = true)
    (hdec : c.dec2 (m0 - 48) (m1 - 48) = 47)
    (hd : isAsciiDigit d = true) (hn : 0 < dstLen) :
    scEncByte c d = [m0, m1, d, d, m0, m1] ∧
    scDecrypt c dstLen [m0, m1, d, d, m0, m1] = [d] := by
  constructor
  · rw [scEncByte, if_pos hd]
    rw [hmarker]
    rfl
  · have hesc : scEscapeTest c [m0, m1, d, d, m0, m1] 2 2 = true := by
      rw [scEscapeTest]
      show (decide (2 + 4 ≤ 6) && (d == d) && isAsciiDigit m0 && isAsciiDigit m1 &&
        (((2 == 2) && (m0 == m0) && (m1 == m1)) ||
          (c.dec2 (m0 - 48) (m1 - 48) == 47))) = true
      rw [hm0, hm1]
      simp
    have hstep : scStep c [m0, m1, d, d, m0, m1] dstLen 2 47 2 [] = (6, [d]) := by
      rw [scStep, if_pos ⟨rfl, hesc⟩]
      rw [scPush, if_pos (by simpa using hn)]
      rfl
    rw [scDecrypt]
    show scDecryptLoop c [m0, m1, d, d, m0, m1] dstLen (5 + 1) 0 [] = [d]
    rw [scDecryptLoop]
    rw [if_pos (by simp : (0 : Nat) < ([m0, m1, d, d, m0, m1] : List Nat).length)]
    rw [show ([m0, m1, d, d, m0, m1] : List Nat).getD 0 0 = m0 from rfl]
    rw [if_pos hm0, if_pos hmask]
    rw [if_pos (by simp : (0 : Nat) + 1 < ([m0, m1, d, d, m0, m1] : List Nat).length)]
    rw [show ([m0, m1, d, d, m0, m1] : List Nat).getD (0 + 1) 0 = m1 from rfl]
    rw [if_pos hm1]
    rw [show (0 + 2 : Nat) = 2 from rfl, hdec, hstep]
    show scDecryptLoop c [m0, m1, d, d, m0, m1] dstLen (4 + 1) 6 [d] = [d]
    rw [scDecryptLoop]
    rw [if_neg (by simp : ¬ (6 : Nat) < ([m0, m1, d, d, m0, m1] : List Nat).length)]

/-- Two-digit codes produced by `set_times10` from ASCII-digit prefix
characters consist of ASCII digits. -/
theorem set_times10_digits {longc : List Nat}
    (h0 : isAsciiDigit (longc.getD 0 0) = true) (h1 : isAsciiDigit (longc.getD 1 0) = true) :
    ∀ code ∈ StraddlingCheckerboard.set_times10 longc, code.length = 2 →
      isAsciiDigit (code.getD 0 0) = true ∧ isAsciiDigit (code.getD 1 0) = true := by
  intro code hmem hlen
  have hall : ∀ b ∈ ALL_CIPHER, isAsciiDigit b = true := by decide
  rw [StraddlingCheckerboard.set_times10] at hmem
  rcases List.mem_append.mp hmem with h | h
  · rw [StraddlingCheckerboard.times10] at h
    split at h
    · obtain ⟨b, _, rfl⟩ := List.mem_map.mp h
      simp at hlen
    · obtain ⟨b, hb, rfl⟩ := List.mem_map.mp h
      exact ⟨h0, hall b hb⟩
  · rw [StraddlingCheckerboard.times10] at h
    split at h
    · obtain ⟨b, _, rfl⟩ := List.mem_map.mp h
      simp at hlen
    · obtain ⟨b, hb, rfl⟩ := List.mem_map.mp h
      exact ⟨h1, hall b hb⟩

/-- One expand-key step from a live state stays live when every assigned
two-digit code is made of ASCII digits. -/
theorem scExpandStep_some (shortc : List Nat) (longcCodes : List (List Nat))
    (freq : List Nat)
    (hcodes : ∀ code ∈ longcCodes, code.length = 2 →
      isAsciiDigit (code.getD 0 0) = true ∧ isAsciiDigit (code.getD 1 0) = true)
    (st : (Nat → EncEntry) × (Nat → Nat) × (Nat → Nat → Nat) × Nat × Nat) (ch : Nat) :
    ∃ st', scExpandStep shortc longcCodes freq (some st) ch = some st' := by
  obtain ⟨enc, d1, d2, i, j⟩ := st
  rw [scExpandStep]
  by_cases hf : ch ∈ freq
  · rw [if_pos hf]
    by_cases hi : i < shortc.length
    · rw [if_pos hi]
      exact ⟨_, rfl⟩
    · rw [if_neg hi]
      exact ⟨_, rfl⟩
  · rw [if_neg hf]
    by_cases hj : j < longcCodes.length
    · rw [if_pos hj]
      by_cases hl : (longcCodes.getD j []).length = 2
      · rw [if_pos hl]
        have hmem : longcCodes.getD j [] ∈ longcCodes := by
          rw [List.getD_eq_getElem?_getD, List.getElem?_eq_getElem hj]
          exact List.getElem_mem hj
        obtain ⟨ha, hb⟩ := hcodes _ hmem hl
        rw [if_pos (by rw [ha, hb]; rfl)]
        exact ⟨_, rfl⟩
      · rw [if_neg hl]
        exact ⟨_, rfl⟩
    · rw [if_neg hj]
      exact ⟨_, rfl⟩

/-- Folding the expand-key step keeps a live state when the code table is
digit-clean. -/
theorem scExpand_fold_some (shortc : List Nat) (longcCodes : List (List Nat))
    (freq : List Nat)
    (hcodes : ∀ code ∈ longcCodes, code.length = 2 →
      isAsciiDigit (code.getD 0 0) = true ∧ isAsciiDigit (code.getD 1 0) = true) :
    ∀ (l : List Nat) (st : (Nat → EncEntry) × (Nat → Nat) × (Nat → Nat → Nat) × Nat × Nat),
    (l.foldl (scExpandStep shortc longcCodes freq) (some st)).isSome = true
  | [], _ => rfl
  | ch :: l', st => by
    rw [List.foldl_cons]
    obtain ⟨st', hst'⟩ := scExpandStep_some shortc longcCodes freq hcodes st ch
    rw [hst']
    exact scExpand_fold_some shortc longcCodes freq hcodes l' st'

/-- The table build of `new_with_freq` cannot hit the `dec2` index panic when
both prefix characters are ASCII digits. -/
theorem scExpandKey_isSome (full shortc : List Nat) {longc : List Nat} (freq : List Nat)
    (h0 : isAsciiDigit (longc.getD 0 0) = true) (h1 : isAsciiDigit (longc.getD 1 0) = true) :
    (scExpandKey full shortc longc freq).isSome = true := by
  simp only [scExpandKey]
  have hfold := scExpand_fold_some shortc (StraddlingCheckerboard.set_times10 longc) freq
    (set_times10_digits h0 h1) full
    (fun _ => EncEntry.zero, fun _ => 0, fun _ _ => 0, 0, 0)
  rcases hres : full.foldl
      (scExpandStep shortc (StraddlingCheckerboard.set_times10 longc) freq)
      (some (fun _ => EncEntry.zero, fun _ => 0, fun _ _ => 0, 0, 0)) with _ | st
  · rw [hres] at hfold
    exact absurd hfold (by simp)
  · obtain ⟨enc, d1, d2, i, j⟩ := st
    rfl

/-- Claim C8, amended: construction returns an error exactly when the key is
empty or the prefix argument has fewer than 2 characters; outside those
conditions construction succeeds whenever both prefix characters are ASCII
digits (with a non-digit prefix character the table build can panic instead,
so unconditional success does not hold). -/
theorem new_with_freq_ok_iff (key chrs freq_str alphabet : List Nat) :
    (constructErr (new_with_freq key chrs freq_str alphabet) = true ↔
      (key = [] ∨ chrs.length < 2)) ∧
    (isAsciiDigit (chrs.getD 0 0) = true → isAsciiDigit (chrs.getD 1 0) = true →
      (constructOk (new_with_freq key chrs freq_str alphabet) = true ↔
        (key ≠ [] ∧ 2 ≤ chrs.length))) := by
  by_cases h1 : key.isEmpty
  · have hk : key = [] := List.isEmpty_iff.mp h1
    rw [new_with_freq, if_pos h1]
    constructor
    · exact ⟨fun _ => Or.inl hk, fun _ => rfl⟩
    · intro _ _
      constructor
      · intro habs
        exact absurd habs (by simp [constructOk])
      · rintro ⟨hne, _⟩
        exact absurd hk hne
  · have hk : key ≠ [] := fun e => h1 (by rw [e]; rfl)
    by_cases h2 : chrs.length < 2
    · rw [new_with_freq, if_neg h1, if_pos h2]
      constructor
      · exact ⟨fun _ => Or.inr h2, fun _ => rfl⟩
      · intro _ _
        constructor
        · intro habs
          exact absurd habs (by simp [constructOk])
        · rintro ⟨_, hle⟩
          omega
    · simp only [new_with_freq, if_neg h1, if_neg h2]
      rcases hres : scExpandKey ((shuffle key alphabet).filter (fun c => alphabet.contains c))
          (StraddlingCheckerboard.extract ALL_CIPHER [chrs.getD 0 0, chrs.getD 1 0])
          [chrs.getD 0 0, chrs.getD 1 0] freq_str with _ | t
      · constructor
        · constructor
          · intro habs
            exact absurd habs (by simp [constructErr])
          · rintro (he | hl)
            · exact absurd he hk
            · omega
        · intro hd0 hd1
          have hsome := @scExpandKey_isSome
            ((shuffle key alphabet).filter (fun c => alphabet.contains c))
            (StraddlingCheckerboard.extract ALL_CIPHER [chrs.getD 0 0, chrs.getD 1 0])
            [chrs.getD 0 0, chrs.getD 1 0] freq_str hd0 hd1
          rw [hres] at hsome
          exact absurd hsome (by simp)
      · obtain ⟨enc, d1, d2⟩ := t
        constructor
        · constructor
          · intro habs
            exact absurd habs (by simp [constructErr])
          · rintro (he | hl)
            · exact absurd he hk
            · omega
        · intro _ _
          exact ⟨fun _ => ⟨hk, by omega⟩, fun _ => rfl⟩

/-- Claim C8, counterexample: a non-empty key and a two-character prefix
argument on which construction neither succeeds nor returns an error — the
prefix characters `"XY"` are not ASCII digits, so the Rust table build panics
indexing `dec2[('X' - b'0') as usize]` (modelled as `none`). -/
theorem new_with_freq_panic_counterexample :
    strBytes "A" ≠ [] ∧ 2 ≤ (strBytes "XY").length ∧
    (new_with_freq (strBytes "A") (strBytes "XY") (strBytes "ESANTIRU")
      ALPHABET_TXT).isNone = true := by
  decide

/-- Claim C8, witness: the doc-example board constructs (digit prefixes); the
empty key yields the error return. -/
theorem new_with_freq_ok_iff_witness :
    constructOk (new_with_freq (strBytes "ARABESQUE") (strBytes "89")
        (strBytes "ESANTIRU") ALPHABET_TXT) = true ∧
    constructErr (new_with_freq [] (strBytes "89") (strBytes "ESANTIRU") ALPHABET_TXT) = true :=
  ⟨((new_with_freq_ok_iff (strBytes "ARABESQUE") (strBytes "89") (strBytes "ESANTIRU")
      ALPHABET_TXT).2 (by decide) (by decide)).mpr ⟨by decide, by decide⟩,
   (new_with_freq_ok_iff [] (strBytes "89") (strBytes "ESANTIRU") ALPHABET_TXT).1.mpr
     (Or.inl rfl)⟩

/-- Claim C6: `to_numeric` keeps the length, yields a permutation of
`0..len-1`, and assigns each position its stable-sort rank. -/
theorem to_numeric_spec (l : List Nat) :
    (to_numeric l).length = l.length ∧ (to_numeric l).Perm (List.range l.length) ∧
    (∀ i, i < l.length → (to_numeric l).getD i 0 = stableRank l i) := by
  refine ⟨?_, to_numeric_perm_range l, ?_⟩
  · rw [to_numeric_eq_stableRank, List.length_map, List.length_range]
  · intro i hi
    rw [to_numeric_eq_stableRank, List.getD_eq_getElem?_getD, List.getElem?_map,
      List.getElem?_range hi]
    rfl

/-- Claim C6, witness: the tie-broken rank of `"AAAAA"`, the empty input, and
one instantiation of the stable-rank closed form. -/
theorem to_numeric_spec_witness :
    to_numeric (strBytes "AAAAA") = [0, 1, 2, 3, 4] ∧ to_numeric [] = [] ∧
    (to_numeric (strBytes "AAAAA")).getD 2 0 = stableRank (strBytes "AAAAA") 2 :=
  ⟨by decide, by decide, (to_numeric_spec (strBytes "AAAAA")).2.2 2 (by decide)⟩

/-- Claim C4, witness at the key of the repository's own mask test: cell
`(0, 10)` is triangular (rank-0 anchor at column 10) and `(1, 10)` is not. -/
theorem triangular_mask_spec_witness :
    (get_triangular_mask (to_numeric (strBytes "94735236270398134")) 150).getD
        (0 * 17 + 10) false = true ∧
    (get_triangular_mask (to_numeric (strBytes "94735236270398134")) 150).getD
        (1 * 17 + 10) false = false :=
  ⟨(triangular_mask_spec (strBytes "94735236270398134") 150 (by decide) 0 10 (by decide)
      (by decide)).mpr (by decide),
   by decide⟩

/-- Claim C5, counterexample: with key `"BA"` and a 3-byte input, the code's
distribution differs from the claim's rank-based rule — and only the code's
rule inverts `encrypt`. -/
theorem trDecrypt_rank_rule_counterexample :
    trDecrypt (to_numeric (strBytes "BA")) [10, 20, 30] ≠
      trDecryptSpecRank (to_numeric (strBytes "BA")) [10, 20, 30] ∧
    trDecrypt (to_numeric (strBytes "BA"))
        (trEncrypt (to_numeric (strBytes "BA")) [10, 20, 30]) = [10, 20, 30] ∧
    trDecryptSpecRank (to_numeric (strBytes "BA"))
        (trEncrypt (to_numeric (strBytes "BA")) [10, 20, 30]) ≠ [10, 20, 30] := by
  decide

/-- Claim C5, witness: key `"ARABESQUE"`, a 12-byte input, rank 0, cell 1. -/
theorem trDecrypt_spec_witness :
    (trDecrypt (to_numeric (strBytes "ARABESQUE")) (strBytes "ATTACKATDAWN")).getD
        ((to_numeric (strBytes "ARABESQUE")).indexOf 0 +
          1 * (to_numeric (strBytes "ARABESQUE")).length) 0 =
      (strBytes "ATTACKATDAWN").getD
        ((((List.range 0).map (howMany (to_numeric (strBytes "ARABESQUE"))
            (strBytes "ATTACKATDAWN").length)).sum) + 1) 0 :=
  trDecrypt_spec (strBytes "ARABESQUE") (strBytes "ATTACKATDAWN") (by decide) (by decide)
    0 (by decide) 1 (by decide)

/-- Claim C7, counterexample: a checkerboard built by the public constructor
with prefix digits `"00"` maps the marker (and every two-digit symbol) to no
code at all, so a literal digit is dropped rather than escaped, and the
digit does not survive the round trip. -/
theorem sc_digit_escape_counterexample :
    constructOk (StraddlingCheckerboard.new (strBytes "A") (strBytes "00")) = true ∧
    scEncrypt zeroes_board (strBytes "5") = [] ∧
    scDecrypt zeroes_board 100 (scEncrypt zeroes_board (strBytes "5")) ≠ strBytes "5" := by
  decide

/-- Claim C7, witness on the doc-example board (marker code "97", digit '5'). -/
theorem sc_digit_escape_witness :
    scEncByte arabesque_board 53 = [57, 55, 53, 53, 57, 55] ∧
    scDecrypt arabesque_board 10 [57, 55, 53, 53, 57, 55] = [53] :=
  sc_digit_escape arabesque_board 57 55 53 10 (by decide) (by decide) (by decide)
    (by decide) (by decide) (by decide) (by decide)

/-- Claim C3, witness of the digit-free bound on a digit-free plaintext. -/
theorem scEncrypt_length_bound_witness :
    (scEncrypt arabesque_board (strBytes "ATTACK")).length ≤
        6 * (strBytes "ATTACK").length ∧
    (scEncrypt arabesque_board (strBytes "ATTACK")).length ≤
        2 * (strBytes "ATTACK").length :=
  ⟨(scEncrypt_length_bound arabesque_board (strBytes "ATTACK")).1,
   (scEncrypt_length_bound arabesque_board (strBytes "ATTACK")).2 (by decide)⟩

/-- Claim C10, witness: a 3-byte destination truncates the 11-byte decode. -/
theorem scDecrypt_capacity_witness :
    (scDecrypt arabesque_board 3 (strBytes "0770808107972297088")).length ≤ 3 ∧
    scDecrypt arabesque_board 3 (strBytes "0770808107972297088") =
      (scDecrypt arabesque_board 100 (strBytes "0770808107972297088")).take 3 :=
  ⟨(scDecrypt_capacity arabesque_board 3 (strBytes "0770808107972297088")).1,
   (scDecrypt_capacity arabesque_board 3 (strBytes "0770808107972297088")).2 100 (by decide)⟩

/-- Claim C1, amended: the end-to-end scenario — the fixture
`VicCipher::new("89", "741776", "IDREAMOFJEANNIEWITHT", "77651")` constructs
successfully, and encrypting then decrypting `"HELLOWORLD"` recovers exactly
`"HELLOWORLD"`. -/
theorem vic_fixture_roundtrip :
    vicNewOk (vicNew (strBytes "89") (strBytes "741776") (strBytes "IDREAMOFJEANNIEWITHT")
      (strBytes "77651")) = true ∧
    vicDecrypt vic_fixture 100 (vicEncrypt vic_fixture (strBytes "HELLOWORLD")) =
      strBytes "HELLOWORLD" := by
  decide

/-- Claim C1, counterexample: `"/SS/"` consists only of mapped
supported-alphabet characters, yet the fixture instance does not round-trip
it (the digit-escape heuristic of the checkerboard decode misfires on the
marker-letter-letter-marker pattern, returning the single literal digit). -/
theorem vic_roundtrip_counterexample :
    (∀ b ∈ strBytes "/SS/", b ∈ ALPHABET_TXT ∧ (vic_fixture.sc.enc_table b).len ≠ 0) ∧
    vicDecrypt vic_fixture 100 (vicEncrypt vic_fixture (strBytes "/SS/")) ≠
      strBytes "/SS/" := by
  decide

/-- Claim C2, amended: the key derivation for `personalNumber="89"`,
`indicator="741776"`, `passphrase="IDREAMOFJEANNIEWITHT"`,
`messageIndex="77651"` produces, after the five-round chain-addition cascade,
the irregular-transposition key digits 1 2 0 4 3 1 7 5 9 8. -/
theorem expand_key_fixture :
    (expand_key (strBytes "IDREAMOFJEANNIEWITHT") (str2int (strBytes "77651"))
      (str2int ((strBytes "741776").take 5))).third = [1, 2, 0, 4, 3, 1, 7, 5, 9, 8] := by
  decide

/-- Claim C2, counterexample: the fixture's derived `third` is not the claimed
digit sequence 0 6 8 2 0 5 1 3 7 0 (that vector belongs to the documented
worked example with `messageIndex="1391944"` and `indicator="74177"`). -/
theorem expand_key_fixture_counterexample :
    (expand_key (strBytes "IDREAMOFJEANNIEWITHT") (str2int (strBytes "77651"))
      (str2int ((strBytes "741776").take 5))).third ≠ [0, 6, 8, 2, 0, 5, 1, 3, 7, 0] := by
  decide

/-- Claim C9: `VicCipher::new` with an indicator shorter than 5 characters
panics on the slice `&ind[..5]` (modelled as `none`) instead of returning the
textual construction error the documentation promises. -/
theorem vicNew_short_indicator_panics :
    (vicNew (strBytes "89") (strBytes "123") (strBytes "IDREAMOFJEANNIEWITHT")
      (strBytes "77651")).isNone = true ∧
    (vicNew (strBytes "89") (strBytes "741776") (strBytes "SHORT")
      (strBytes "77651")).isNone = true := by
  decide
